import Mathlib

/-!
Verification of the stock-analytics backend (`backend/app.py`) against its
natural-language specification.  The Python code is shallowly embedded in
Lean: pandas/NumPy float arithmetic is modelled over `ℚ` (with `Option ℚ`
standing for NaN/absent values, since the code treats NaN only through
`dropna` / comparisons that all yield `False`), Python `dict`s are modelled
as association lists preserving insertion order, and Python's bankers
rounding `round` is modelled by `roundHalfEven`.
-/

namespace StockApp

/-- Python `round(q)`: round half to even, returning an integer. -/
def roundHalfEven (q : ℚ) : ℤ :=
  if q - ⌊q⌋ < 1/2 then ⌊q⌋
  else if 1/2 < q - ⌊q⌋ then ⌊q⌋ + 1
  else if ⌊q⌋ % 2 = 0 then ⌊q⌋ else ⌊q⌋ + 1

/-- Python `round(q, 2)`: round half to even at two decimal places. -/
def pyRound2 (q : ℚ) : ℚ :=
  (roundHalfEven (q * 100) : ℚ) / 100

/-- `_clamp01` from `get_stock`: `max(0.0, min(1.0, v))`. -/
def clamp01 (v : ℚ) : ℚ := max 0 (min 1 v)

/-- Python `a or b` on optional floats: `a` is falsy when `None` or `0.0`
(used for `_to_num(avg_volume) or _to_num(volume)`). -/
def pyOrNum (a b : Option ℚ) : Option ℚ :=
  match a with
  | none => b
  | some x => if x = 0 then b else some x

/-- `_log10` from `get_stock`: `np.log10(v) if v and v > 0 else None`.
The (irrational) base-10 logarithm itself is passed in as a parameter
`log10`; the guard is the code's. -/
def pyLog10Guard (log10 : ℚ → ℚ) (v : ℚ) : Option ℚ :=
  if 0 < v then some (log10 v) else none

/-- Liquidity sub-score from `get_stock`: anchors 6.3/7.3 with a dollar-volume
base, 5.5/6.5 with a share-volume base. -/
def liquidityScore (log10 : ℚ → ℚ) (avgDollarVolume avgVolumeNum : Option ℚ) :
    Option ℚ :=
  match (match avgDollarVolume with | some x => some x | none => avgVolumeNum) with
  | none => none
  | some base =>
    match pyLog10Guard log10 base with
    | none => none
    | some lv =>
      let low : ℚ := if avgDollarVolume.isSome then 63/10 else 55/10
      let high : ℚ := if avgDollarVolume.isSome then 73/10 else 65/10
      some (clamp01 ((high - lv) / (high - low)))

/-- The raw inputs the risk composite of `get_stock` reads (each may be
absent; `currentPrice` is the live price used for the dollar-volume). -/
structure RiskInput where
  vol1y : Option ℚ
  vol30 : Option ℚ
  drawdown : Option ℚ
  beta : Option ℚ
  sharpe : Option ℚ
  sortino : Option ℚ
  avgVolume : Option ℚ
  volume : Option ℚ
  currentPrice : Option ℚ
  marketCap : Option ℚ

/-- The risk-index computation of `get_stock` (lines 2082-2140): each present
metric is clamped into a `[0,1]` sub-score, absent metrics are dropped, and
the weighted average of the present sub-scores, renormalised by the sum of
the present weights, times 100 and rounded, is the index; `none` when no
sub-score is present. -/
def riskIndex (log10 : ℚ → ℚ) (i : RiskInput) : Option ℤ :=
  let avgVolumeNum := pyOrNum i.avgVolume i.volume
  let avgDollarVolume :=
    match avgVolumeNum, i.currentPrice with
    | some av, some cp => some (av * cp)
    | _, _ => none
  let volRegime :=
    match i.vol30, i.vol1y with
    | some v30, some v1 => if 0 < v1 then some (v30 / v1) else none
    | _, _ => none
  let volScore := i.vol1y.map (fun v => clamp01 ((v - 15) / 25))
  let vol30Score := i.vol30.map (fun v => clamp01 ((v - 15) / 25))
  let ddScore := i.drawdown.map (fun v => clamp01 ((|v| - 10) / 25))
  let betaScore := i.beta.map (fun v => clamp01 ((v - 9/10) / (6/10)))
  let sharpeScore := i.sharpe.map (fun v => clamp01 ((12/10 - v) / (12/10)))
  let sortinoScore := i.sortino.map (fun v => clamp01 ((14/10 - v) / (14/10)))
  let liqScore := liquidityScore log10 avgDollarVolume avgVolumeNum
  let sizeScore :=
    match i.marketCap with
    | none => none
    | some mc => (pyLog10Guard log10 mc).map (fun lv => clamp01 ((10 - lv) / (10 - 93/10)))
  let regimeScore := volRegime.map (fun v => clamp01 ((v - 1) / (6/10)))
  let parts : List (Option ℚ × ℚ) :=
    [(volScore, 2/10), (vol30Score, 1/10), (ddScore, 2/10), (betaScore, 1/10),
     (sharpeScore, 1/10), (sortinoScore, 1/10), (liqScore, 1/10),
     (sizeScore, 1/20), (regimeScore, 1/20)]
  let present := parts.filterMap (fun p => p.1.map (fun v => (v, p.2)))
  if present.isEmpty then none
  else
    let weightSum := (present.map Prod.snd).sum
    some (roundHalfEven ((present.map (fun p => p.1 * p.2)).sum / weightSum * 100))

/-- C1: with exactly the 1y-volatility and drawdown metrics present, the
index is `round(100 * (0.20 * volScore + 0.20 * ddScore) / 0.40)`; with no
metric present the index is null. -/
theorem riskIndex_vol_dd_only (log10 : ℚ → ℚ) (v d : ℚ) (cp : Option ℚ) :
    riskIndex log10 ⟨some v, none, some d, none, none, none, none, none, cp, none⟩ =
      some (roundHalfEven
        (100 * ((2/10) * clamp01 ((v - 15) / 25) + (2/10) * clamp01 ((|d| - 10) / 25)) / (4/10))) ∧
    riskIndex log10 ⟨none, none, none, none, none, none, none, none, cp, none⟩ = none := by
  constructor
  · simp only [riskIndex, pyOrNum, liquidityScore, Option.map_none, Option.map_some]
    norm_num [List.filterMap, List.isEmpty]
    congr 1
    ring
  · simp [riskIndex, pyOrNum, liquidityScore]

/-- A support/resistance zone as produced by `calculate_supply_demand_zones`:
keys `price`, `min`, `max`. -/
structure Zone where
  price : ℚ
  min : ℚ
  max : ℚ
deriving DecidableEq

/-- Python `max(list)` (`None`-free): `none` on the empty list. -/
def maxOfList : List ℚ → Option ℚ
  | [] => none
  | x :: xs => some (xs.foldl Max.max x)

/-- Python `min(list)`: `none` on the empty list. -/
def minOfList : List ℚ → Option ℚ
  | [] => none
  | x :: xs => some (xs.foldl Min.min x)

/-- The inner loop of `merge_list` in `merge_close_zones`: `lastZ` is
`merged[-1]`, updated in place whenever the next zone's centre is within
`last.price * min_gap_pct / 100` of it. -/
def mergeLoop (pct : ℚ) (lastZ : Zone) : List Zone → List Zone
  | [] => [lastZ]
  | item :: rest =>
    if |item.price - lastZ.price| ≤ lastZ.price * (pct / 100) then
      mergeLoop pct
        ⟨pyRound2 ((lastZ.price + item.price) / 2),
         pyRound2 (Min.min lastZ.min item.min),
         pyRound2 (Max.max lastZ.max item.max)⟩ rest
    else lastZ :: mergeLoop pct item rest

/-- `merge_list` from `merge_close_zones`: sort by price (Python `sorted` is
stable), then sweep merging adjacent zones. -/
def mergeList (pct : ℚ) (items : List Zone) : List Zone :=
  match List.insertionSort (fun a b => a.price ≤ b.price) items with
  | [] => []
  | z :: rest => mergeLoop pct z rest

/-- `merge_close_zones(zones, min_gap_pct)` over the pair
(support list, resistance list). -/
def mergeCloseZones (pct : ℚ) (zones : List Zone × List Zone) :
    List Zone × List Zone :=
  if pct ≤ 0 then zones else (mergeList pct zones.1, mergeList pct zones.2)

/-- `determine_market_state(price, supports, resistances, proximity)`;
division on `ℚ` (by a nonzero nearest level in the code's intended use)
models the float division. -/
def determineMarketState (price : ℚ) (supports resistances : List Zone)
    (prox : ℚ) : String × ℚ :=
  let ns := maxOfList ((supports.filter (fun s => s.price ≤ price)).map Zone.price)
  let nr := minOfList ((resistances.filter (fun r => price ≤ r.price)).map Zone.price)
  match ns, nr with
  | some s, some r =>
    let dS := (price - s) / s * 100
    let dR := (r - price) / r * 100
    let strength := pyRound2 (100 - Min.min dS dR)
    if dS < dR ∧ dS < prox then ("IN_DEMAND", strength)
    else if dR < dS ∧ dR < prox then ("IN_SUPPLY", strength)
    else ("IN_NONE", strength)
  | _, _ => ("IN_NONE", 0)

/-- C10: if no support sits at or below the price, or no resistance sits at
or above it, the market state is `IN_NONE` with strength exactly 0. -/
theorem marketState_one_sided (price : ℚ) (supports resistances : List Zone)
    (prox : ℚ)
    (h : (∀ s ∈ supports, ¬ s.price ≤ price) ∨
         (∀ r ∈ resistances, ¬ price ≤ r.price)) :
    determineMarketState price supports resistances prox = ("IN_NONE", 0) := by
  unfold determineMarketState
  rcases h with h | h
  · have hf : supports.filter (fun s => decide (s.price ≤ price)) = [] := by
      simp only [List.filter_eq_nil_iff, decide_eq_true_eq]
      exact h
    rw [hf]
    simp [maxOfList]
  · have hf : resistances.filter (fun r => decide (price ≤ r.price)) = [] := by
      simp only [List.filter_eq_nil_iff, decide_eq_true_eq]
      exact h
    rw [hf]
    simp [minOfList]

/-- Witness for C10 at a concrete one-sided input. -/
theorem marketState_one_sided_witness :
    determineMarketState 10 [⟨20, 19, 21⟩] [⟨30, 29, 31⟩] (3/2) = ("IN_NONE", 0) :=
  marketState_one_sided 10 [⟨20, 19, 21⟩] [⟨30, 29, 31⟩] (3/2)
    (Or.inl (by decide))

/-- C7 counterexample: two same-side zones with centres within the gap
threshold (prices 1 and 1.006, gap 1%) merge into one zone whose price is
`round((1 + 1.006)/2, 2) = 1.0`, not the arithmetic mean `1.003`: the claim's
"price is the arithmetic mean of the two original zone prices" fails. -/
theorem mergeZones_mean_cex :
    ¬ ((mergeCloseZones 1 ([⟨1, 9/10, 11/10⟩, ⟨503/500, 19/20, 23/20⟩], [])).1.map Zone.price
        = [((1 : ℚ) + 503/500) / 2]) := by
  have hsort : List.insertionSort (fun a b => a.price ≤ b.price)
      [(⟨1, 9/10, 11/10⟩ : Zone), ⟨503/500, 19/20, 23/20⟩]
      = [⟨1, 9/10, 11/10⟩, ⟨503/500, 19/20, 23/20⟩] := by
    norm_num [List.insertionSort, List.orderedInsert]
  have hcond : |(503/500 : ℚ) - 1| ≤ 1 * (1 / 100) := by
    rw [abs_of_nonneg (by norm_num : (0:ℚ) ≤ 503/500 - 1)]
    norm_num
  have hres : (mergeCloseZones 1 ([⟨1, 9/10, 11/10⟩, ⟨503/500, 19/20, 23/20⟩], [])).1
      = [⟨pyRound2 (((1:ℚ) + 503/500) / 2), pyRound2 (Min.min (9/10 : ℚ) (19/20)),
          pyRound2 (Max.max (11/10 : ℚ) (23/20))⟩] := by
    rw [mergeCloseZones, if_neg (by norm_num : ¬ (1:ℚ) ≤ 0)]
    show mergeList 1 _ = _
    unfold mergeList
    rw [hsort]
    simp only [mergeLoop, if_pos hcond]
  rw [hres]
  have hr2 : pyRound2 (((1:ℚ) + 503/500) / 2) = 1 := by
    have hfl : (⌊(((1:ℚ) + 503/500) / 2) * 100⌋ : ℤ) = 100 := by
      norm_num [Int.floor_eq_iff]
    simp only [pyRound2, roundHalfEven, hfl]
    norm_num
  simp only [List.map_cons, List.map_nil, hr2]
  intro h
  have := List.head_eq_of_cons_eq h
  norm_num at this

/-- C7 amended: for a positive gap percentage, merging two same-side zones
whose centres are within `min(price) * pct / 100` of each other yields exactly
one zone whose price is the arithmetic mean of the two prices rounded to two
decimals, and whose bounds are the rounded min/max of the original bounds. -/
theorem mergeZones_pair (z w : Zone) (pct : ℚ) (hp : 0 < pct)
    (hgap : |w.price - z.price| ≤ Min.min z.price w.price * (pct / 100)) :
    (mergeCloseZones pct ([z, w], [])).1 =
      [⟨pyRound2 ((z.price + w.price) / 2),
        pyRound2 (Min.min z.min w.min),
        pyRound2 (Max.max z.max w.max)⟩] ∧
    (mergeCloseZones pct ([z, w], [])).2 = [] := by
  have hnp : ¬ pct ≤ 0 := not_le.mpr hp
  constructor
  · simp only [mergeCloseZones, if_neg hnp]
    show mergeList pct [z, w] = _
    unfold mergeList
    by_cases hzw : z.price ≤ w.price
    · have hsort : List.insertionSort (fun a b => a.price ≤ b.price) [z, w] = [z, w] := by
        simp [List.insertionSort, List.orderedInsert, hzw]
      rw [hsort]
      have hcond : |w.price - z.price| ≤ z.price * (pct / 100) := by
        rwa [min_eq_left hzw] at hgap
      simp [mergeLoop, hcond]
    · have hwz : w.price ≤ z.price := le_of_not_le hzw
      have hsort : List.insertionSort (fun a b => a.price ≤ b.price) [z, w] = [w, z] := by
        simp [List.insertionSort, List.orderedInsert, hzw]
      rw [hsort]
      have hcond : |z.price - w.price| ≤ w.price * (pct / 100) := by
        rw [abs_sub_comm]
        rwa [min_eq_right hwz] at hgap
      simp only [mergeLoop, if_pos hcond]
      rw [add_comm w.price z.price, min_comm w.min z.min, max_comm w.max z.max]
  · simp [mergeCloseZones, if_neg hnp, mergeList, List.insertionSort]

/-- Witness for C7 at a concrete pair of overlapping zones. -/
theorem mergeZones_pair_witness :
    (mergeCloseZones 1 ([⟨1, 0, 2⟩, ⟨1, 0, 2⟩], [])).1 =
      [⟨pyRound2 (((1 : ℚ) + 1) / 2), pyRound2 (Min.min (0 : ℚ) 0), pyRound2 (Max.max (2 : ℚ) 2)⟩] ∧
    (mergeCloseZones 1 ([(⟨1, 0, 2⟩ : Zone), ⟨1, 0, 2⟩], [])).2 = [] :=
  mergeZones_pair ⟨1, 0, 2⟩ ⟨1, 0, 2⟩ 1 (by norm_num) (by norm_num)

/-- One row of the seasonality data frame after preparation in
`get_seasonality`: calendar year, calendar month (1-12) and the
month-over-month percent return (`none` for NaN). -/
structure SRow where
  year : Nat
  month : Nat
  ret : Option ℚ
deriving DecidableEq

/-- Insert a year into an ascending duplicate-free list (used to model the
sorted group keys of `df.groupby("Year")`). -/
def insertSortedNat (n : Nat) : List Nat → List Nat
  | [] => [n]
  | m :: rest =>
    if n < m then n :: m :: rest
    else if n = m then m :: rest
    else m :: insertSortedNat n rest

/-- The ascending list of distinct years appearing in the frame, as
`groupby("Year")` enumerates them. -/
def yearKeys (rows : List SRow) : List Nat :=
  rows.foldl (fun acc r => insertSortedNat r.year acc) []

/-- The 12-slot monthly curve of one year group: slot `month-1` receives the
rounded return of that month (later rows overwrite). -/
def buildMonthly (g : List SRow) : List (Option ℚ) :=
  g.foldl (fun curve r =>
    match r.ret with
    | none => curve
    | some v => curve.set (r.month - 1) (some (pyRound2 v))) (List.replicate 12 none)

/-- One step of the cumulative-compounding loop of `get_seasonality`:
`cum = (1 + cum) * (1 + v/100) - 1`, storing `round(cum * 100, 2)`; a null
slot stores null and leaves the accumulated state untouched. -/
def cumulStep (acc : List (Option ℚ) × ℚ) (v : Option ℚ) : List (Option ℚ) × ℚ :=
  match v with
  | none => (acc.1 ++ [none], acc.2)
  | some r =>
    ((acc.1 ++ [some (pyRound2 (((1 + acc.2) * (1 + r / 100) - 1) * 100))]),
     (1 + acc.2) * (1 + r / 100) - 1)

/-- The compounded cumulative curve derived from a 12-slot monthly curve. -/
def cumulativeFromMonthly (mc : List (Option ℚ)) : List (Option ℚ) :=
  (mc.foldl cumulStep ([], 0)).1

/-- `seasonalCurveByYear` assembly of `get_seasonality` (lines 3062-3088):
a year is skipped when it is not the current year and has fewer than 6
populated monthly returns; a surviving year is emitted when its curve has
any populated slot. -/
def seasonalCurveByYear (currentYear : Nat) (rows : List SRow) :
    List (Nat × List (Option ℚ)) :=
  (yearKeys rows).foldr (fun y acc =>
    if y ≠ currentYear ∧
        (rows.filter (fun r => r.year == y)).countP (fun r => r.ret.isSome) < 6 then acc
    else
      if (buildMonthly (rows.filter (fun r => r.year == y))).any Option.isSome then
        (y, buildMonthly (rows.filter (fun r => r.year == y))) :: acc
      else acc) []

/-- Evaluation helper: `round(q, 2)` for a `q` that is an exact multiple of
`1/100`. -/
theorem pyRound2_eq_of_mul_eq_int (q : ℚ) (z : ℤ) (h : q * 100 = z) :
    pyRound2 q = (z : ℚ) / 100 := by
  unfold pyRound2 roundHalfEven
  rw [h, Int.floor_intCast]
  norm_num

/-- Compounding leaves the state alone and appends nulls over a run of
missing months. -/
theorem cumulStep_replicate_none (n : Nat) (l : List (Option ℚ)) (c : ℚ) :
    (List.replicate n none).foldl cumulStep (l, c) = (l ++ List.replicate n none, c) := by
  induction n generalizing l with
  | zero => simp
  | succ k ih =>
    rw [List.replicate_succ, List.foldl_cons]
    show (List.replicate k none).foldl cumulStep (l ++ [none], c) = _
    rw [ih (l ++ [none])]
    simp

/-- C6: a year that is not the current year and has fewer than 6 populated
monthly returns never appears in `seasonalCurveByYear`; and compounding the
monthly-return sequence 10 percent then -5 percent yields the cumulative
values 10.0 and 4.5 (two-decimal rounded percent). -/
theorem seasonality_exclusion_and_compound :
    (∀ (currentYear : Nat) (rows : List SRow) (y : Nat) (mc : List (Option ℚ)),
        y ≠ currentYear →
        (rows.filter (fun r => r.year == y)).countP (fun r => r.ret.isSome) < 6 →
        (y, mc) ∉ seasonalCurveByYear currentYear rows) ∧
    cumulativeFromMonthly ([some 10, some (-5)] ++ List.replicate 10 none)
      = [some 10, some (9/2)] ++ List.replicate 10 none := by
  constructor
  · intro cy rows y mc hne hcount hmem
    unfold seasonalCurveByYear at hmem
    revert hmem
    generalize yearKeys rows = ys
    induction ys with
    | nil => intro hmem; simp at hmem
    | cons y0 ys ih =>
      intro hmem
      rw [List.foldr_cons] at hmem
      by_cases hskip : y0 ≠ cy ∧
          (rows.filter (fun r => r.year == y0)).countP (fun r => r.ret.isSome) < 6
      · rw [if_pos hskip] at hmem
        exact ih hmem
      · rw [if_neg hskip] at hmem
        by_cases hany : (buildMonthly (rows.filter (fun r => r.year == y0))).any Option.isSome
        · rw [if_pos hany] at hmem
          rcases List.mem_cons.mp hmem with heq | hmem'
          · have hy : y = y0 := congrArg Prod.fst heq
            subst hy
            exact hskip ⟨hne, hcount⟩
          · exact ih hmem'
        · rw [if_neg hany] at hmem
          exact ih hmem
  · unfold cumulativeFromMonthly
    rw [List.foldl_append, List.foldl_cons, List.foldl_cons, List.foldl_nil]
    have hs1 : cumulStep ([], 0) (some 10)
        = ([some 10], 1/10) := by
      show ([some (pyRound2 (((1 + (0:ℚ)) * (1 + 10 / 100) - 1) * 100))],
            (1 + (0:ℚ)) * (1 + 10 / 100) - 1) = ([some 10], 1/10)
      rw [pyRound2_eq_of_mul_eq_int _ 1000 (by norm_num)]
      norm_num
    have hs2 : cumulStep ([some 10], 1/10) (some (-5))
        = ([some 10, some (9/2)], 9/200) := by
      show ([some 10, some (pyRound2 (((1 + (1/10:ℚ)) * (1 + (-5) / 100) - 1) * 100))],
            (1 + (1/10:ℚ)) * (1 + (-5) / 100) - 1) = ([some 10, some (9/2)], 9/200)
      rw [pyRound2_eq_of_mul_eq_int _ 450 (by norm_num)]
      norm_num
    rw [hs1, hs2, cumulStep_replicate_none]

/-- Witness for C6's exclusion branch at a concrete frame. -/
theorem seasonality_exclusion_witness :
    (2020, List.replicate 12 (none : Option ℚ)) ∉
      seasonalCurveByYear 2025 [⟨2020, 1, some 1⟩, ⟨2020, 2, none⟩, ⟨2025, 1, some 2⟩] :=
  seasonality_exclusion_and_compound.1 2025
    [⟨2020, 1, some 1⟩, ⟨2020, 2, none⟩, ⟨2025, 1, some 2⟩] 2020
    (List.replicate 12 none) (by decide) (by decide)

/-- A value stored in the fundamentals accumulator: `_merge_missing_info`
writes either a coerced float (`_to_float`) or a coerced text (`_to_text`). -/
abbrev TVal := ℚ ⊕ String

/-- Python `dict.get`: the value of the first (only) binding of the key. -/
def lookupA (t : List (String × TVal)) (k : String) : Option TVal :=
  match t with
  | [] => none
  | e :: rest => if e.1 = k then some e.2 else lookupA rest k

/-- Python `dict[k] = v`: replace in place, or append a fresh binding. -/
def setA (t : List (String × TVal)) (k : String) (v : TVal) :
    List (String × TVal) :=
  match t with
  | [] => [(k, v)]
  | e :: rest => if e.1 = k then (k, v) :: rest else e :: setA rest k v

/-- The text keys of `_merge_missing_info`. -/
def textKeys : List String := ["shortName", "sector"]

/-- The coercion `_merge_missing_info` applies to a source value at key `k`:
`_to_text` on text keys, `_to_float` otherwise.  The two coercions (pure
partial functions on provider values) are passed in as parameters `toFloat`
and `toText`. -/
def coerceFor {V : Type} (toFloat : V → Option ℚ) (toText : V → Option String)
    (k : String) (v : V) : Option TVal :=
  if k ∈ textKeys then (toText v).map Sum.inr else (toFloat v).map Sum.inl

/-- `_merge_missing_info(target, source)` (lines 1045-1059): iterate the
source items; skip when the target already has a non-null value or the
source value is `None`; otherwise coerce and assign only on success. -/
def mergeMissingInfo {V : Type} (toFloat : V → Option ℚ) (toText : V → Option String)
    (target : List (String × TVal)) (source : List (String × Option V)) :
    List (String × TVal) :=
  source.foldl (fun tgt kv =>
    if (lookupA tgt kv.1).isSome then tgt
    else
      match kv.2 with
      | none => tgt
      | some v =>
        match coerceFor toFloat toText kv.1 v with
        | some tv => setA tgt kv.1 tv
        | none => tgt) target

theorem lookupA_setA_self (t : List (String × TVal)) (k : String) (v : TVal) :
    lookupA (setA t k v) k = some v := by
  induction t with
  | nil => simp [setA, lookupA]
  | cons e rest ih =>
    by_cases h : e.1 = k
    · simp [setA, lookupA, h]
    · simp [setA, lookupA, h, ih]

theorem lookupA_setA_ne (t : List (String × TVal)) (k k' : String) (v : TVal)
    (h : k ≠ k') : lookupA (setA t k' v) k = lookupA t k := by
  have hks : ¬ k' = k := fun hh => h hh.symm
  induction t with
  | nil => simp [setA, lookupA, hks]
  | cons e rest ih =>
    by_cases he : e.1 = k'
    · have hek : ¬ e.1 = k := by rw [he]; exact hks
      simp [setA, lookupA, he, hks, hek]
    · simp only [setA, if_neg he, lookupA]
      by_cases hek : e.1 = k
      · simp [hek]
      · simp [hek, ih]

/-- Core frame property of the merge: at every key the result is either
untouched, or the target was null there and the result is a successful
coercion of some source value at that key. -/
theorem mergeMissingInfo_cases {V : Type} (toFloat : V → Option ℚ)
    (toText : V → Option String) (source : List (String × Option V))
    (target : List (String × TVal)) (k : String) :
    lookupA (mergeMissingInfo toFloat toText target source) k = lookupA target k ∨
    (lookupA target k = none ∧ ∃ v, (k, some v) ∈ source ∧
      lookupA (mergeMissingInfo toFloat toText target source) k
        = coerceFor toFloat toText k v ∧
      (coerceFor toFloat toText k v).isSome) := by
  induction source generalizing target with
  | nil => exact Or.inl rfl
  | cons kv rest ih =>
    by_cases hket : (lookupA target kv.1).isSome
    · have hstep : mergeMissingInfo toFloat toText target (kv :: rest)
          = mergeMissingInfo toFloat toText target rest := by
        simp only [mergeMissingInfo, List.foldl_cons]
        rw [if_pos hket]
      rw [hstep]
      rcases ih target with h | ⟨hn, v, hv, hres, hsome⟩
      · exact Or.inl h
      · exact Or.inr ⟨hn, v, List.mem_cons_of_mem _ hv, hres, hsome⟩
    · cases hv2 : kv.2 with
      | none =>
        have hstep : mergeMissingInfo toFloat toText target (kv :: rest)
            = mergeMissingInfo toFloat toText target rest := by
          simp only [mergeMissingInfo, List.foldl_cons, hv2]
          rw [if_neg hket]
        rw [hstep]
        rcases ih target with h | ⟨hn, v, hv, hres, hsome⟩
        · exact Or.inl h
        · exact Or.inr ⟨hn, v, List.mem_cons_of_mem _ hv, hres, hsome⟩
      | some v0 =>
        cases hc : coerceFor toFloat toText kv.1 v0 with
        | none =>
          have hstep : mergeMissingInfo toFloat toText target (kv :: rest)
              = mergeMissingInfo toFloat toText target rest := by
            simp only [mergeMissingInfo, List.foldl_cons, hv2, hc]
            rw [if_neg hket]
          rw [hstep]
          rcases ih target with h | ⟨hn, v, hv, hres, hsome⟩
          · exact Or.inl h
          · exact Or.inr ⟨hn, v, List.mem_cons_of_mem _ hv, hres, hsome⟩
        | some tv =>
          have hstep : mergeMissingInfo toFloat toText target (kv :: rest)
              = mergeMissingInfo toFloat toText (setA target kv.1 tv) rest := by
            simp only [mergeMissingInfo, List.foldl_cons, hv2, hc]
            rw [if_neg hket]
          rw [hstep]
          rcases ih (setA target kv.1 tv) with h | ⟨hn, v, hv, hres, hsome⟩
          · by_cases hkk : k = kv.1
            · refine Or.inr ⟨?_, v0, ?_, ?_, ?_⟩
              · rw [hkk]
                exact Option.not_isSome_iff_eq_none.mp hket
              · have hkveq : (k, some v0) = kv := by
                  rw [hkk, ← hv2]
                exact hkveq ▸ List.mem_cons_self kv rest
              · rw [h, hkk, lookupA_setA_self]
                exact hc.symm
              · rw [hkk, hc]
                rfl
            · exact Or.inl (by rw [h, lookupA_setA_ne _ _ _ _ hkk])
          · refine Or.inr ⟨?_, v, List.mem_cons_of_mem _ hv, hres, hsome⟩
            by_cases hkk : k = kv.1
            · rw [hkk, lookupA_setA_self] at hn
              exact absurd hn (by simp)
            · rwa [lookupA_setA_ne _ _ _ _ hkk] at hn

/-- C8: the merge leaves every already-populated field unchanged, and a
field it does change was null in the accumulator and receives a successful
coercion of a source value at that key. -/
theorem mergeMissing_frame {V : Type} (toFloat : V → Option ℚ)
    (toText : V → Option String) (target : List (String × TVal))
    (source : List (String × Option V)) (k : String) :
    ((lookupA target k).isSome →
      lookupA (mergeMissingInfo toFloat toText target source) k = lookupA target k) ∧
    (lookupA (mergeMissingInfo toFloat toText target source) k ≠ lookupA target k →
      lookupA target k = none ∧ ∃ v, (k, some v) ∈ source ∧
        lookupA (mergeMissingInfo toFloat toText target source) k
          = coerceFor toFloat toText k v ∧
        (coerceFor toFloat toText k v).isSome) := by
  rcases mergeMissingInfo_cases toFloat toText source target k with h | ⟨hn, hrest⟩
  · exact ⟨fun _ => h, fun hne => absurd h hne⟩
  · constructor
    · intro hsome
      rw [hn] at hsome
      exact absurd hsome (by simp)
    · intro _
      exact ⟨hn, hrest⟩

/-- Witness for C8: a populated field survives the merge, and a null field
is filled by a coercible source value. -/
theorem mergeMissing_frame_witness :
    (lookupA (mergeMissingInfo (fun q : ℚ => some q) (fun _ => none)
        [("beta", Sum.inl 1)] [("beta", some 2)]) "beta"
      = lookupA [("beta", Sum.inl 1)] "beta") ∧
    (lookupA ([] : List (String × TVal)) "marketCap" = none ∧
      ∃ v : ℚ, ("marketCap", some v) ∈ [("marketCap", some (3:ℚ))] ∧
        lookupA (mergeMissingInfo (fun q : ℚ => some q) (fun _ => none)
            [] [("marketCap", some 3)]) "marketCap"
          = coerceFor (fun q : ℚ => some q) (fun _ => none) "marketCap" v ∧
        (coerceFor (fun q : ℚ => some q) (fun _ => none) "marketCap" v).isSome) := by
  constructor
  · exact (mergeMissing_frame (fun q : ℚ => some q) (fun _ => none)
      [("beta", Sum.inl 1)] [("beta", some 2)] "beta").1 (by simp [lookupA])
  · refine (mergeMissing_frame (fun q : ℚ => some q) (fun _ => none)
      [] [("marketCap", some 3)] "marketCap").2 ?_
    simp [mergeMissingInfo, lookupA, setA, coerceFor, textKeys]

/-- A cache is a Python dict in insertion order: entries are
(key, payload, insertion timestamp); timestamps are abstract clock ticks. -/
abbrev Cache := List (Nat × Nat × Nat)

/-- Python `cache_dict[key] = (payload, ts)`: replace in place or append. -/
def setKey : Cache → Nat → Nat → Nat → Cache
  | [], k, v, ts => [(k, v, ts)]
  | e :: rest, k, v, ts =>
    if e.1 = k then (k, v, ts) :: rest else e :: setKey rest k v ts

/-- The eviction of `_cache_set`: delete the first key (in iteration order)
whose entry has the minimal timestamp, as
`min(cache_dict, key=lambda k: cache_dict[k][1])` does. -/
def evictOldest (c : Cache) : Cache :=
  match c with
  | [] => []
  | e :: rest =>
    (e :: rest).eraseP (fun x => x.2.2 == (rest.map (fun y => y.2.2)).foldl Min.min e.2.2)

/-- `_cache_set(cache_dict, key, payload, max_size)`: insert, then evict the
oldest entry whenever the size exceeds the bound. -/
def cacheSet (maxSize : Nat) (c : Cache) (k v ts : Nat) : Cache :=
  if maxSize < (setKey c k v ts).length then evictOldest (setKey c k v ts)
  else setKey c k v ts

/-- Python `cache_dict.get(key)`. -/
def lookupKey : Cache → Nat → Option (Nat × Nat)
  | [], _ => none
  | e :: rest, k => if e.1 = k then some e.2 else lookupKey rest k

/-- `_cache_get(cache_dict, key, ttl)` at clock `now`: a hit while
`now - ts < ttl`, otherwise a miss that lazily deletes the stale entry.
Returns the payload (if any) and the cache afterwards. -/
def cacheGet (c : Cache) (k : Nat) (now ttl : Nat) : Option Nat × Cache :=
  match lookupKey c k with
  | none => (none, c)
  | some vts =>
    if now - vts.2 < ttl then (some vts.1, c)
    else (none, c.eraseP (fun e => e.1 == k))

/-- Run a sequence of `_cache_set` calls, one per clock tick. -/
def cacheRun (maxSize : Nat) : List (Nat × Nat) → Nat → Cache → Cache
  | [], _, c => c
  | kv :: ops, t, c => cacheRun maxSize ops (t + 1) (cacheSet maxSize c kv.1 kv.2 t)

/-- The entries the `set` sequence would create, with consecutive
timestamps. -/
def opEntries : List (Nat × Nat) → Nat → Cache
  | [], _ => []
  | kv :: ops, t => (kv.1, kv.2, t) :: opEntries ops (t + 1)

theorem opEntries_length (ops : List (Nat × Nat)) (t : Nat) :
    (opEntries ops t).length = ops.length := by
  induction ops generalizing t with
  | nil => rfl
  | cons kv ops ih => simp [opEntries, ih]

theorem setKey_of_not_mem (c : Cache) (k v ts : Nat)
    (h : k ∉ c.map (fun e => e.1)) : setKey c k v ts = c ++ [(k, v, ts)] := by
  induction c with
  | nil => rfl
  | cons e rest ih =>
    simp only [List.map_cons, List.mem_cons] at h
    push_neg at h
    simp only [setKey, if_neg (Ne.symm h.1), List.cons_append]
    rw [ih h.2]

theorem foldl_min_eq (l : List Nat) (a : Nat) (h : ∀ x ∈ l, a ≤ x) :
    l.foldl Min.min a = a := by
  induction l with
  | nil => rfl
  | cons x xs ih =>
    rw [List.foldl_cons, min_eq_left (h x (List.mem_cons_self x xs))]
    exact ih (fun y hy => h y (List.mem_cons_of_mem x hy))

theorem evictOldest_head (e : Nat × Nat × Nat) (rest : Cache)
    (h : ∀ x ∈ rest, e.2.2 < x.2.2) : evictOldest (e :: rest) = rest := by
  have hm : (rest.map (fun y => y.2.2)).foldl Min.min e.2.2 = e.2.2 := by
    apply foldl_min_eq
    intro x hx
    rcases List.mem_map.mp hx with ⟨y, hy, rfl⟩
    exact le_of_lt (h y hy)
  simp only [evictOldest, hm]
  simp [List.eraseP_cons]

theorem lookupKey_eq_none_of_not_mem (c : Cache) (k : Nat)
    (h : k ∉ c.map (fun e => e.1)) : lookupKey c k = none := by
  induction c with
  | nil => rfl
  | cons e rest ih =>
    simp only [List.map_cons, List.mem_cons] at h
    push_neg at h
    simp only [lookupKey, if_neg (Ne.symm h.1)]
    exact ih h.2

theorem lookupKey_eraseP_self (c : Cache) (k : Nat)
    (hnd : (c.map (fun e => e.1)).Nodup) :
    lookupKey (c.eraseP (fun e => e.1 == k)) k = none := by
  induction c with
  | nil => rfl
  | cons e rest ih =>
    simp only [List.map_cons, List.nodup_cons] at hnd
    by_cases he : e.1 = k
    · rw [List.eraseP_cons]
      rw [show (e.1 == k) = true from by simp [he], cond_true]
      apply lookupKey_eq_none_of_not_mem
      rw [← he]
      exact hnd.1
    · rw [List.eraseP_cons]
      rw [show (e.1 == k) = false from beq_eq_false_iff_ne.mpr he, cond_false]
      simp only [lookupKey, if_neg he]
      exact ih hnd.2

/-- The bounded cache behaves as a FIFO on fresh keys: running a `set`
sequence from a well-formed cache keeps exactly the most recent `maxSize`
entries (so every eviction removed the entry with the globally earliest
timestamp). -/
theorem cacheRun_eq_drop (maxSize : Nat) (hms : 1 ≤ maxSize)
    (ops : List (Nat × Nat)) (t : Nat) (c : Cache)
    (hnd : ((c.map fun e => e.1) ++ ops.map Prod.fst).Nodup)
    (hpw : List.Pairwise (fun a b => a.2.2 < b.2.2) c)
    (hts : ∀ e ∈ c, e.2.2 < t)
    (hlen : c.length ≤ maxSize) :
    cacheRun maxSize ops t c
      = (c ++ opEntries ops t).drop (c.length + ops.length - maxSize) := by
  induction ops generalizing t c with
  | nil =>
    have h0 : c.length - maxSize = 0 := by omega
    simp [cacheRun, opEntries, h0]
  | cons kv ops ih =>
    have hknotc : kv.1 ∉ c.map (fun e => e.1) := by
      rcases List.nodup_append.mp hnd with ⟨-, -, hdisj⟩
      intro hmem
      exact hdisj hmem (by simp)
    have hset : setKey c kv.1 kv.2 t = c ++ [(kv.1, kv.2, t)] :=
      setKey_of_not_mem c kv.1 kv.2 t hknotc
    have hndtail : (((c ++ [(kv.1, kv.2, t)]).map fun e => e.1) ++ ops.map Prod.fst).Nodup := by
      simp only [List.map_append, List.map_cons, List.map_nil, List.append_assoc,
        List.singleton_append]
      simpa [List.map_cons] using hnd
    have hpw1 : List.Pairwise (fun a b => a.2.2 < b.2.2) (c ++ [(kv.1, kv.2, t)]) := by
      rw [List.pairwise_append]
      exact ⟨hpw, List.pairwise_singleton _ _, fun a ha b hb => by
        simp only [List.mem_singleton] at hb
        subst hb
        exact hts a ha⟩
    have hts1 : ∀ e ∈ c ++ [(kv.1, kv.2, t)], e.2.2 < t + 1 := by
      intro e he
      rcases List.mem_append.mp he with he | he
      · exact Nat.lt_succ_of_lt (hts e he)
      · simp only [List.mem_singleton] at he
        subst he
        exact Nat.lt_succ_self t
    by_cases hover : maxSize < c.length + 1
    · -- the insertion overflows: the head (oldest entry) is evicted
      have hceq : c.length = maxSize := by omega
      cases c with
      | nil => simp only [List.length_nil] at hceq; omega
      | cons e crest =>
        simp only [List.length_cons] at hceq
        have hstep : cacheSet maxSize (e :: crest) kv.1 kv.2 t
            = crest ++ [(kv.1, kv.2, t)] := by
          unfold cacheSet
          rw [hset]
          rw [if_pos (by simp only [List.length_append, List.length_cons,
            List.length_nil]; omega)]
          have : (e :: crest) ++ [(kv.1, kv.2, t)] = e :: (crest ++ [(kv.1, kv.2, t)]) := by
            simp
          rw [this]
          apply evictOldest_head
          intro x hx
          rcases List.mem_append.mp hx with hx | hx
          · exact List.rel_of_pairwise_cons hpw hx
          · simp only [List.mem_singleton] at hx
            subst hx
            exact hts e (List.mem_cons_self _ _)
        show cacheRun maxSize ops (t + 1) (cacheSet maxSize (e :: crest) kv.1 kv.2 t) = _
        rw [hstep]
        have hrec := ih (t + 1) (crest ++ [(kv.1, kv.2, t)])
          (by
            have := hndtail
            simp only [List.cons_append, List.map_cons] at this
            exact (List.nodup_cons.mp this).2)
          (by
            have := hpw1
            simp only [List.cons_append] at this
            exact (List.pairwise_cons.mp this).2)
          (by
            intro x hx
            exact hts1 x (by simp only [List.cons_append]; exact List.mem_cons_of_mem _ hx))
          (by
            simp only [List.length_append, List.length_cons, List.length_nil]
            omega)
        rw [hrec]
        have hlen2 : (crest ++ [(kv.1, kv.2, t)]).length + ops.length - maxSize
            = ops.length := by
          simp only [List.length_append, List.length_cons, List.length_nil]
          omega
        have hlen3 : (e :: crest).length + (kv :: ops).length - maxSize
            = ops.length + 1 := by
          simp only [List.length_cons]
          omega
        rw [hlen2, hlen3]
        show _ = ((e :: crest) ++ opEntries (kv :: ops) t).drop (ops.length + 1)
        simp only [opEntries, List.cons_append, List.drop_succ_cons, List.append_assoc,
          List.singleton_append, List.nil_append]
    · -- the insertion fits: no eviction
      have hstep : cacheSet maxSize c kv.1 kv.2 t = c ++ [(kv.1, kv.2, t)] := by
        unfold cacheSet
        rw [hset]
        rw [if_neg (by simp only [List.length_append, List.length_cons,
          List.length_nil]; omega)]
      show cacheRun maxSize ops (t + 1) (cacheSet maxSize c kv.1 kv.2 t) = _
      rw [hstep]
      have hrec := ih (t + 1) (c ++ [(kv.1, kv.2, t)]) hndtail hpw1 hts1
        (by simp only [List.length_append, List.length_cons, List.length_nil]; omega)
      rw [hrec]
      have hlen2 : (c ++ [(kv.1, kv.2, t)]).length + ops.length - maxSize
          = c.length + (kv :: ops).length - maxSize := by
        simp only [List.length_append, List.length_cons, List.length_nil]
        omega
      rw [hlen2]
      congr 1
      simp only [opEntries, List.append_assoc, List.singleton_append]

/-- C2: (i) along any `set` sequence with distinct keys the cache never
exceeds the bound, and the final cache keeps exactly the most recent
`maxSize` entries, i.e. every eviction removed the entry with the globally
earliest insertion timestamp; (ii) a `get` of an entry whose age reaches the
TTL is a miss that removes the entry. -/
theorem cache_bound_and_ttl :
    (∀ (maxSize : Nat) (ops : List (Nat × Nat)), 1 ≤ maxSize →
      (ops.map Prod.fst).Nodup →
      ((∀ n, (cacheRun maxSize (ops.take n) 0 []).length ≤ maxSize) ∧
       cacheRun maxSize ops 0 [] = (opEntries ops 0).drop (ops.length - maxSize))) ∧
    (∀ (c : Cache) (k v ts now ttl : Nat), (c.map fun e => e.1).Nodup →
      lookupKey c k = some (v, ts) → ttl ≤ now - ts →
      cacheGet c k now ttl = (none, c.eraseP (fun e => e.1 == k)) ∧
      lookupKey (cacheGet c k now ttl).2 k = none) := by
  constructor
  · intro maxSize ops hms hnd
    have hrunpfx : ∀ n, cacheRun maxSize (ops.take n) 0 []
        = (opEntries (ops.take n) 0).drop ((ops.take n).length - maxSize) := by
      intro n
      have h := cacheRun_eq_drop maxSize hms (ops.take n) 0 []
        (by
          simp only [List.map_nil, List.nil_append]
          exact (List.map_take Prod.fst ops n) ▸ (hnd.sublist (List.take_sublist n _)))
        List.Pairwise.nil (by intro e he; simp at he) (by simp)
      simpa using h
    constructor
    · intro n
      rw [hrunpfx n, List.length_drop, opEntries_length]
      omega
    · have h := hrunpfx ops.length
      simpa [List.take_length] using h
  · intro c k v ts now ttl hnd hlook httl
    have hcond : ¬ now - ts < ttl := by omega
    have hget : cacheGet c k now ttl = (none, c.eraseP (fun e => e.1 == k)) := by
      unfold cacheGet
      rw [hlook]
      simp only [if_neg hcond]
    exact ⟨hget, by rw [hget]; exact lookupKey_eraseP_self c k hnd⟩

/-- Witness for C2 at a concrete overflowing `set` sequence and a stale
`get`. -/
theorem cache_bound_and_ttl_witness :
    cacheRun 2 [(1, 10), (2, 20), (3, 30)] 0 []
      = (opEntries [(1, 10), (2, 20), (3, 30)] 0).drop ([(1, 10), (2, 20), (3, 30)].length - 2) ∧
    cacheGet [(5, 7, 0)] 5 10 4 = (none, List.eraseP (fun e => e.1 == 5) [(5, 7, 0)]) := by
  constructor
  · exact (cache_bound_and_ttl.1 2 [(1, 10), (2, 20), (3, 30)] (by norm_num) (by decide)).2
  · exact (cache_bound_and_ttl.2 [(5, 7, 0)] 5 7 0 10 4 (by decide) (by decide) (by norm_num)).1

/-! ### Ticker resolver (`normalize_ticker`, `ticker_candidates`)

Strings are lists of characters; the ASCII character classes of the regexes
(`\d`, `[A-Z]`), Python's `str.upper` and `str.strip` are modelled through
`Char.toNat`. -/

/-- `\d` (ASCII digit). -/
def isDig (c : Char) : Bool := decide (48 ≤ c.toNat) && decide (c.toNat ≤ 57)

/-- `[A-Z]`. -/
def isUpperAZ (c : Char) : Bool := decide (65 ≤ c.toNat) && decide (c.toNat ≤ 90)

/-- The whitespace characters `str.strip` removes (ASCII). -/
def pyIsSpaceChar (c : Char) : Bool :=
  decide (c.toNat = 32) || (decide (9 ≤ c.toNat) && decide (c.toNat ≤ 13))

/-- `str.upper` on one ASCII character. -/
def pyToUpper (c : Char) : Char :=
  if 97 ≤ c.toNat ∧ c.toNat ≤ 122 then Char.ofNat (c.toNat - 32) else c

/-- `str.strip()`. -/
def pyStrip (l : List Char) : List Char :=
  ((l.dropWhile pyIsSpaceChar).reverse.dropWhile pyIsSpaceChar).reverse

/-- `value.strip().upper().replace(" ", "")`. -/
def pyUpperNoSpace (l : List Char) : List Char :=
  ((pyStrip l).map pyToUpper).filter (fun c => !(decide (c.toNat = 32)))

/-- `re.match(r"^\d+[A-Z]{1,6}$", t)` as a whole-string test. -/
def matchDigitsLetters (l : List Char) : Bool :=
  !(l.takeWhile isDig).isEmpty && !(l.dropWhile isDig).isEmpty &&
    decide ((l.dropWhile isDig).length ≤ 6) && (l.dropWhile isDig).all isUpperAZ

/-- `re.match(r"^\d+[A-Z]{1,6}(\.[A-Z]{1,3})?$", t)` as a whole-string
test. -/
def matchNormPattern (l : List Char) : Bool :=
  !(l.takeWhile isDig).isEmpty &&
    !((l.dropWhile isDig).takeWhile isUpperAZ).isEmpty &&
    decide (((l.dropWhile isDig).takeWhile isUpperAZ).length ≤ 6) &&
    (((l.dropWhile isDig).dropWhile isUpperAZ).isEmpty ||
      (((l.dropWhile isDig).dropWhile isUpperAZ).head? == some '.' &&
        !((l.dropWhile isDig).dropWhile isUpperAZ).tail.isEmpty &&
        decide (((l.dropWhile isDig).dropWhile isUpperAZ).tail.length ≤ 3) &&
        ((l.dropWhile isDig).dropWhile isUpperAZ).tail.all isUpperAZ))

/-- `normalize_ticker(value)`: strip/uppercase/despace, then remove the
leading digit run when the result matches the digit-prefixed pattern. -/
def normalizeTicker (l : List Char) : List Char :=
  if l.isEmpty then l
  else
    if matchNormPattern (pyUpperNoSpace l) then (pyUpperNoSpace l).dropWhile isDig
    else pyUpperNoSpace l

/-- The `if t and t not in candidates: candidates.append(t)` step of
`ticker_candidates`. -/
def addCandidate (cs : List (List Char)) (t : List Char) : List (List Char) :=
  if ¬t.isEmpty ∧ t ∉ cs then cs ++ [t] else cs

/-- `ticker_candidates(raw)` (lines 771-781): a Milan-suffixed variant for
digit-prefixed suffixless symbols, then the raw uppercased form, then the
normalized form, de-duplicated in order. -/
def tickerCandidates (raw : List Char) : List (List Char) :=
  addCandidate
    (addCandidate
      (if ¬(pyUpperNoSpace raw).isEmpty ∧ '.' ∉ pyUpperNoSpace raw ∧
          matchDigitsLetters (pyUpperNoSpace raw) = true
       then [pyUpperNoSpace raw ++ ['.', 'M', 'I']] else [])
      (pyUpperNoSpace raw))
    (normalizeTicker (pyUpperNoSpace raw))

theorem dropWhile_of_forall_false {α : Type} (p : α → Bool) (l : List α)
    (h : ∀ x ∈ l, p x = false) : l.dropWhile p = l := by
  cases l with
  | nil => rfl
  | cons a l => simp [List.dropWhile_cons, h a (List.mem_cons_self a l)]

theorem takeWhile_append_of_all {α : Type} (p : α → Bool) (a b : List α)
    (h : ∀ x ∈ a, p x = true) : (a ++ b).takeWhile p = a ++ b.takeWhile p := by
  induction a with
  | nil => simp
  | cons x xs ih =>
    simp only [List.cons_append, List.takeWhile_cons,
      h x (List.mem_cons_self x xs), if_true]
    rw [ih (fun y hy => h y (List.mem_cons_of_mem x hy))]

theorem dropWhile_append_of_all {α : Type} (p : α → Bool) (a b : List α)
    (h : ∀ x ∈ a, p x = true) : (a ++ b).dropWhile p = b.dropWhile p := by
  induction a with
  | nil => simp
  | cons x xs ih =>
    simp only [List.cons_append, List.dropWhile_cons,
      h x (List.mem_cons_self x xs)]
    exact ih (fun y hy => h y (List.mem_cons_of_mem x hy))

theorem takeWhile_of_forall_true {α : Type} (p : α → Bool) (l : List α)
    (h : ∀ x ∈ l, p x = true) : l.takeWhile p = l := by
  induction l with
  | nil => rfl
  | cons a l ih =>
    simp only [List.takeWhile_cons, h a (List.mem_cons_self a l), if_true]
    rw [ih (fun y hy => h y (List.mem_cons_of_mem a hy))]

theorem dropWhile_of_forall_true {α : Type} (p : α → Bool) (l : List α)
    (h : ∀ x ∈ l, p x = true) : l.dropWhile p = [] := by
  induction l with
  | nil => rfl
  | cons a l ih =>
    simp only [List.dropWhile_cons, h a (List.mem_cons_self a l)]
    exact ih (fun y hy => h y (List.mem_cons_of_mem a hy))

theorem map_eq_self_of_forall {α : Type} (f : α → α) (l : List α)
    (h : ∀ x ∈ l, f x = x) : l.map f = l := by
  induction l with
  | nil => rfl
  | cons a l ih =>
    simp only [List.map_cons, h a (List.mem_cons_self a l)]
    rw [ih (fun y hy => h y (List.mem_cons_of_mem a hy))]

theorem filter_eq_self_of_forall {α : Type} (p : α → Bool) (l : List α)
    (h : ∀ x ∈ l, p x = true) : l.filter p = l := by
  induction l with
  | nil => rfl
  | cons a l ih =>
    simp only [List.filter_cons, h a (List.mem_cons_self a l), if_true]
    rw [ih (fun y hy => h y (List.mem_cons_of_mem a hy))]

theorem ne_of_length_lt {α : Type} (a b : List α) (h : a.length < b.length) :
    a ≠ b := by
  intro he
  rw [he] at h
  exact lt_irrefl _ h

/-- A digit or A-Z character survives strip/upper/despace untouched and is
not a separator dot. -/
theorem char_class_facts (c : Char) (h : isDig c = true ∨ isUpperAZ c = true) :
    pyIsSpaceChar c = false ∧ pyToUpper c = c ∧ (!(decide (c.toNat = 32))) = true ∧
      c ≠ '.' := by
  have hb : 48 ≤ c.toNat ∧ c.toNat ≤ 90 := by
    rcases h with h | h
    · simp only [isDig, Bool.and_eq_true, decide_eq_true_eq] at h
      omega
    · simp only [isUpperAZ, Bool.and_eq_true, decide_eq_true_eq] at h
      omega
  refine ⟨?_, ?_, ?_, ?_⟩
  · simp only [pyIsSpaceChar, Bool.or_eq_false_iff, Bool.and_eq_false_iff,
      decide_eq_false_iff_not]
    constructor
    · omega
    · right
      omega
  · unfold pyToUpper
    rw [if_neg (by omega)]
  · simp only [Bool.not_eq_true', decide_eq_false_iff_not]
    omega
  · intro he
    rw [he] at hb
    revert hb
    decide

/-- `isDig` fails on A-Z. -/
theorem isDig_false_of_upper (c : Char) (h : isUpperAZ c = true) :
    isDig c = false := by
  simp only [isUpperAZ, Bool.and_eq_true, decide_eq_true_eq] at h
  simp only [isDig, Bool.and_eq_false_iff, decide_eq_false_iff_not]
  right
  omega

/-- `strip`, `upper` and space removal leave a digit/A-Z string alone. -/
theorem pyUpperNoSpace_eq_self (l : List Char)
    (h : ∀ c ∈ l, isDig c = true ∨ isUpperAZ c = true) :
    pyUpperNoSpace l = l := by
  have hdw : l.dropWhile pyIsSpaceChar = l :=
    dropWhile_of_forall_false _ _ (fun c hc => (char_class_facts c (h c hc)).1)
  have hstrip : pyStrip l = l := by
    unfold pyStrip
    rw [hdw]
    rw [dropWhile_of_forall_false _ _
      (fun c hc => (char_class_facts c (h c (List.mem_reverse.mp hc))).1)]
    exact List.reverse_reverse l
  unfold pyUpperNoSpace
  rw [hstrip]
  rw [map_eq_self_of_forall _ _ (fun c hc => (char_class_facts c (h c hc)).2.1)]
  exact filter_eq_self_of_forall _ _
    (fun c hc => (char_class_facts c (h c hc)).2.2.1)

/-- C3 counterexample: `"1ABCDEFG"` (a digit run followed by seven letters,
no separator) yields the single candidate `"1ABCDEFG"`: the regexes require
at most six letters, so no regional-suffix variant is produced and the
digit-stripped form is absent — the claim fails. -/
theorem tickerCandidates_seven_letters_cex :
    ¬ ((∃ c ∈ tickerCandidates ['1', 'A', 'B', 'C', 'D', 'E', 'F', 'G'], '.' ∈ c) ∧
       pyUpperNoSpace ['1', 'A', 'B', 'C', 'D', 'E', 'F', 'G']
         ∈ tickerCandidates ['1', 'A', 'B', 'C', 'D', 'E', 'F', 'G'] ∧
       (pyUpperNoSpace ['1', 'A', 'B', 'C', 'D', 'E', 'F', 'G']).dropWhile isDig
         ∈ tickerCandidates ['1', 'A', 'B', 'C', 'D', 'E', 'F', 'G']) := by
  decide

/-- C3 amended: for an input of a nonempty digit run followed by one to six
uppercase letters (and no separator), the candidate list is exactly the
Milan-suffixed variant, the raw (already upper-case) form and the
digit-stripped normalized form, without duplicates. -/
theorem tickerCandidates_digit_letters (ds ls : List Char)
    (hd : ds ≠ []) (hdall : ∀ c ∈ ds, isDig c = true)
    (hl : ls ≠ []) (hlen : ls.length ≤ 6)
    (hlall : ∀ c ∈ ls, isUpperAZ c = true) :
    tickerCandidates (ds ++ ls) = [(ds ++ ls) ++ ['.', 'M', 'I'], ds ++ ls, ls] ∧
    (tickerCandidates (ds ++ ls)).Nodup := by
  have hclass : ∀ c ∈ ds ++ ls, isDig c = true ∨ isUpperAZ c = true := by
    intro c hc
    rcases List.mem_append.mp hc with hc | hc
    · exact Or.inl (hdall c hc)
    · exact Or.inr (hlall c hc)
  have hup : pyUpperNoSpace (ds ++ ls) = ds ++ ls :=
    pyUpperNoSpace_eq_self _ hclass
  obtain ⟨l0, ltl, rfl⟩ : ∃ l0 ltl, ls = l0 :: ltl := by
    cases ls with
    | nil => exact absurd rfl hl
    | cons a t => exact ⟨a, t, rfl⟩
  have htake : (ds ++ l0 :: ltl).takeWhile isDig = ds := by
    rw [takeWhile_append_of_all _ _ _ hdall]
    simp [List.takeWhile_cons,
      isDig_false_of_upper l0 (hlall l0 (List.mem_cons_self _ _))]
  have hdrop : (ds ++ l0 :: ltl).dropWhile isDig = l0 :: ltl := by
    rw [dropWhile_append_of_all _ _ _ hdall]
    simp [List.dropWhile_cons,
      isDig_false_of_upper l0 (hlall l0 (List.mem_cons_self _ _))]
  have hne : (ds ++ l0 :: ltl).isEmpty = false := by
    cases ds with
    | nil => exact absurd rfl hd
    | cons a t => rfl
  have hnodot : '.' ∉ ds ++ l0 :: ltl := by
    intro hmem
    exact (char_class_facts '.' (hclass '.' hmem)).2.2.2 rfl
  have hdsne : (!ds.isEmpty) = true := by
    cases ds with
    | nil => exact absurd rfl hd
    | cons a t => rfl
  have hmatch : matchDigitsLetters (ds ++ l0 :: ltl) = true := by
    unfold matchDigitsLetters
    rw [htake, hdrop, hdsne, decide_eq_true hlen, List.all_eq_true.mpr hlall]
    rfl
  have hmatchN : matchNormPattern (ds ++ l0 :: ltl) = true := by
    unfold matchNormPattern
    rw [htake, hdrop, takeWhile_of_forall_true _ _ hlall,
      dropWhile_of_forall_true _ _ hlall, hdsne, decide_eq_true hlen]
    rfl
  have hnorm : normalizeTicker (ds ++ l0 :: ltl) = l0 :: ltl := by
    unfold normalizeTicker
    rw [if_neg (by rw [hne]; exact Bool.false_ne_true), hup, if_pos hmatchN, hdrop]
  have hdslen : 1 ≤ ds.length := by
    cases ds with
    | nil => exact absurd rfl hd
    | cons a t => simp
  have hlt1 : (ds ++ l0 :: ltl).length < ((ds ++ l0 :: ltl) ++ ['.', 'M', 'I']).length := by
    simp only [List.length_append, List.length_cons, List.length_nil]
    omega
  have hlt2 : (l0 :: ltl).length < ((ds ++ l0 :: ltl) ++ ['.', 'M', 'I']).length := by
    simp only [List.length_append, List.length_cons, List.length_nil]
    omega
  have hlt3 : (l0 :: ltl).length < (ds ++ l0 :: ltl).length := by
    simp only [List.length_append, List.length_cons]
    omega
  have hstep1 : addCandidate [(ds ++ l0 :: ltl) ++ ['.', 'M', 'I']] (ds ++ l0 :: ltl)
      = [(ds ++ l0 :: ltl) ++ ['.', 'M', 'I'], ds ++ l0 :: ltl] := by
    unfold addCandidate
    rw [if_pos ⟨by rw [hne]; exact Bool.false_ne_true, by
      intro hmem
      exact ne_of_length_lt _ _ hlt1 (List.mem_singleton.mp hmem)⟩]
    rfl
  have hstep2 : addCandidate [(ds ++ l0 :: ltl) ++ ['.', 'M', 'I'], ds ++ l0 :: ltl]
      (l0 :: ltl)
      = [(ds ++ l0 :: ltl) ++ ['.', 'M', 'I'], ds ++ l0 :: ltl, l0 :: ltl] := by
    unfold addCandidate
    rw [if_pos ⟨by simp, by
      intro hmem
      rcases List.mem_cons.mp hmem with heq | hmem
      · exact ne_of_length_lt _ _ hlt2 heq
      · exact ne_of_length_lt _ _ hlt3 (List.mem_singleton.mp hmem)⟩]
    rfl
  have hfull : tickerCandidates (ds ++ l0 :: ltl)
      = [(ds ++ l0 :: ltl) ++ ['.', 'M', 'I'], ds ++ l0 :: ltl, l0 :: ltl] := by
    unfold tickerCandidates
    rw [hup, hnorm]
    rw [if_pos (⟨by rw [hne]; exact Bool.false_ne_true, hnodot, hmatch⟩ :
      ¬(ds ++ l0 :: ltl).isEmpty = true ∧ '.' ∉ ds ++ l0 :: ltl ∧
        matchDigitsLetters (ds ++ l0 :: ltl) = true)]
    rw [hstep1, hstep2]
  refine ⟨hfull, ?_⟩
  rw [hfull]
  refine List.nodup_cons.mpr ⟨?_, List.nodup_cons.mpr ⟨?_, List.nodup_singleton _⟩⟩
  · intro hmem
    rcases List.mem_cons.mp hmem with heq | hmem
    · exact ne_of_length_lt _ _ hlt1 heq.symm
    · exact ne_of_length_lt _ _ hlt2 (List.mem_singleton.mp hmem).symm
  · intro hmem
    exact ne_of_length_lt _ _ hlt3 (List.mem_singleton.mp hmem).symm

/-- Witness for C3 at the concrete input `"1A"`. -/
theorem tickerCandidates_digit_letters_witness :
    tickerCandidates (['1'] ++ ['A'])
      = [(['1'] ++ ['A']) ++ ['.', 'M', 'I'], ['1'] ++ ['A'], ['A']] ∧
    (tickerCandidates (['1'] ++ ['A'])).Nodup :=
  ⟨(tickerCandidates_digit_letters ['1'] ['A'] (by decide) (by decide)
      (by decide) (by decide) (by decide)).1,
   (tickerCandidates_digit_letters ['1'] ['A'] (by decide) (by decide)
      (by decide) (by decide) (by decide)).2⟩

/-! ### Resampling (`_resample_ohlc` with rule `"ME"`)

A daily series is a date-ascending list of OHLCV bars; `Option ℚ` values
model floats with `none` for NaN.  `resampleMonthly` models
`df.resample("ME").agg({Open: first, High: max, Low: min, Close: last,
Volume: sum}).dropna(subset=["Close"])` on a sorted index: consecutive bars
of one calendar month form a bucket, the pandas aggregations skip NaN, and
buckets whose aggregated Close is NaN (including the empty intermediate
months pandas generates) are dropped. -/

structure Bar where
  y : Nat
  m : Nat
  d : Nat
  op : Option ℚ
  hi : Option ℚ
  lo : Option ℚ
  cl : Option ℚ
  vol : Option ℚ
deriving DecidableEq

/-- The calendar-month bucket key of a bar. -/
def bkey (b : Bar) : Nat × Nat := (b.y, b.m)

/-- Pandas `first` aggregation: first non-NaN value. -/
def firstSome : List (Option ℚ) → Option ℚ
  | [] => none
  | some x :: _ => some x
  | none :: rest => firstSome rest

/-- Pandas `last` aggregation: last non-NaN value. -/
def lastSome (l : List (Option ℚ)) : Option ℚ := firstSome l.reverse

/-- Pandas `max` aggregation: max of the non-NaN values, NaN if none. -/
def maxSome : List (Option ℚ) → Option ℚ
  | [] => none
  | none :: rest => maxSome rest
  | some x :: rest =>
    match maxSome rest with
    | none => some x
    | some z => some (Max.max x z)

/-- Pandas `min` aggregation. -/
def minSome : List (Option ℚ) → Option ℚ
  | [] => none
  | none :: rest => minSome rest
  | some x :: rest =>
    match minSome rest with
    | none => some x
    | some z => some (Min.min x z)

/-- Pandas `sum` aggregation: NaN counts as zero, empty sum is zero. -/
def sumSome (l : List (Option ℚ)) : ℚ := (l.filterMap id).sum

/-- One row of the resampled (monthly) frame. -/
structure MBar where
  y : Nat
  m : Nat
  op : Option ℚ
  hi : Option ℚ
  lo : Option ℚ
  cl : Option ℚ
  vol : Option ℚ
deriving DecidableEq

/-- Aggregate one bucket of daily rows. -/
def aggBucket (k : Nat × Nat) (rows : List Bar) : MBar :=
  ⟨k.1, k.2, firstSome (rows.map Bar.op), maxSome (rows.map Bar.hi),
   minSome (rows.map Bar.lo), lastSome (rows.map Bar.cl),
   some (sumSome (rows.map Bar.vol))⟩

/-- Walk the sorted series emitting one aggregate per run of equal month
keys (`curRun` holds the current run reversed). -/
def resampleGo (curKey : Nat × Nat) (curRun : List Bar) : List Bar → List MBar
  | [] => [aggBucket curKey curRun.reverse]
  | b :: rest =>
    if decide (bkey b = curKey) then resampleGo curKey (b :: curRun) rest
    else aggBucket curKey curRun.reverse :: resampleGo (bkey b) [b] rest

/-- All month buckets of a sorted daily series, in order. -/
def resampleMonthlyAux : List Bar → List MBar
  | [] => []
  | b :: rest => resampleGo (bkey b) [b] rest

/-- `_resample_ohlc(df, "ME")`: aggregate per month and drop buckets with a
NaN Close. -/
def resampleMonthly (l : List Bar) : List MBar :=
  (resampleMonthlyAux l).filter (fun mb => mb.cl.isSome)

/-- Date order on bars (year, month, day lexicographically). -/
def dateLe (a b : Bar) : Prop :=
  a.y < b.y ∨ (a.y = b.y ∧ (a.m < b.m ∨ (a.m = b.m ∧ a.d ≤ b.d)))

instance : DecidableRel dateLe := fun a b => by
  unfold dateLe
  infer_instance

/-- Strict order on month keys. -/
def monthLt (k1 k2 : Nat × Nat) : Prop :=
  k1.1 < k2.1 ∨ (k1.1 = k2.1 ∧ k1.2 < k2.2)

theorem monthLe_of_dateLe (a b : Bar) (h : dateLe a b) :
    bkey a = bkey b ∨ monthLt (bkey a) (bkey b) := by
  unfold dateLe at h
  unfold bkey monthLt
  rcases h with h | ⟨hy, h⟩
  · exact Or.inr (Or.inl h)
  · rcases h with h | ⟨hm, -⟩
    · exact Or.inr (Or.inr ⟨hy, h⟩)
    · exact Or.inl (by rw [hy, hm])

theorem monthLt_ne (k1 k2 : Nat × Nat) (h : monthLt k1 k2) : k1 ≠ k2 := by
  intro he
  subst he
  unfold monthLt at h
  rcases h with h | ⟨h1, h2⟩ <;> omega

theorem monthLt_trans_le (k1 k2 k3 : Nat × Nat) (h : monthLt k1 k2)
    (h2 : k2 = k3 ∨ monthLt k2 k3) : monthLt k1 k3 := by
  rcases h2 with rfl | h2
  · exact h
  · unfold monthLt at *
    rcases h with h | ⟨ha, hb⟩ <;> rcases h2 with h2 | ⟨hc, hd⟩ <;>
      first
        | (left; omega)
        | (right; constructor <;> omega)

/-- The buckets `resampleGo` emits: each one is keyed by a month occurring
in the series and aggregates exactly the rows of that month. -/
theorem resampleGo_buckets (rest : List Bar) :
    ∀ (curKey : Nat × Nat) (curRun : List Bar),
      (∀ x ∈ curRun, bkey x = curKey) → curRun ≠ [] →
      List.Pairwise dateLe (curRun.reverse ++ rest) →
      ∀ mb ∈ resampleGo curKey curRun rest,
        (∃ x ∈ curRun.reverse ++ rest, bkey x = (mb.y, mb.m)) ∧
        mb = aggBucket (mb.y, mb.m)
          ((curRun.reverse ++ rest).filter (fun z => decide (bkey z = (mb.y, mb.m)))) := by
  induction rest with
  | nil =>
    intro curKey curRun h1 h2 hpw mb hmb
    simp only [resampleGo, List.mem_singleton] at hmb
    subst hmb
    obtain ⟨c, cr, rfl⟩ : ∃ c cr, curRun = c :: cr := by
      cases curRun with
      | nil => exact absurd rfl h2
      | cons c cr => exact ⟨c, cr, rfl⟩
    have heta : ((aggBucket curKey (c :: cr).reverse).y,
        (aggBucket curKey (c :: cr).reverse).m) = curKey := rfl
    constructor
    · refine ⟨c, ?_, ?_⟩
      · simp
      · rw [heta]
        exact h1 c (List.mem_cons_self c cr)
    · show aggBucket curKey (c :: cr).reverse = _
      rw [heta, List.append_nil]
      rw [filter_eq_self_of_forall _ _
        (fun z hz => decide_eq_true (h1 z (List.mem_reverse.mp hz)))]
  | cons b rest2 ih =>
    intro curKey curRun h1 h2 hpw mb hmb
    by_cases hb : bkey b = curKey
    · rw [resampleGo, if_pos (decide_eq_true hb)] at hmb
      have hlist : (b :: curRun).reverse ++ rest2 = curRun.reverse ++ (b :: rest2) := by
        rw [List.reverse_cons, List.append_assoc, List.singleton_append]
      have h1b : ∀ x ∈ b :: curRun, bkey x = curKey := by
        intro x hx
        rcases List.mem_cons.mp hx with rfl | hx'
        · exact hb
        · exact h1 x hx'
      have h := ih curKey (b :: curRun) h1b (List.cons_ne_nil b curRun)
        (by rw [hlist]; exact hpw) mb hmb
      rw [hlist] at h
      exact h
    · rw [resampleGo, if_neg (by simp [hb])] at hmb
      obtain ⟨c, cr, rfl⟩ : ∃ c cr, curRun = c :: cr := by
        cases curRun with
        | nil => exact absurd rfl h2
        | cons c cr => exact ⟨c, cr, rfl⟩
      have hrkey := h1 c (List.mem_cons_self c cr)
      have hcross := (List.pairwise_append.mp hpw).2.2
      have hcb : dateLe c b :=
        hcross c (by simp) b (List.mem_cons_self b rest2)
      have hbmonthlt : monthLt curKey (bkey b) := by
        rcases monthLe_of_dateLe c b hcb with he | hlt
        · rw [hrkey] at he
          exact absurd he.symm hb
        · rwa [hrkey] at hlt
      have hpw2 : List.Pairwise dateLe (b :: rest2) :=
        hpw.sublist (List.sublist_append_right _ _)
      have hxne : ∀ x ∈ b :: rest2, bkey x ≠ curKey := by
        intro x hx
        rcases List.mem_cons.mp hx with rfl | hx'
        · exact hb
        · have hbx := List.rel_of_pairwise_cons hpw2 hx'
          have hlt := monthLt_trans_le curKey (bkey b) (bkey x) hbmonthlt
            (monthLe_of_dateLe b x hbx)
          exact fun he => monthLt_ne curKey (bkey x) hlt he.symm
      rcases List.mem_cons.mp hmb with rfl | hmb2
      · have heta : ((aggBucket curKey (c :: cr).reverse).y,
            (aggBucket curKey (c :: cr).reverse).m) = curKey := rfl
        constructor
        · refine ⟨c, ?_, ?_⟩
          · simp
          · rw [heta]
            exact hrkey
        · show aggBucket curKey (c :: cr).reverse = _
          rw [heta, List.filter_append]
          rw [filter_eq_self_of_forall _ _
            (fun z hz => decide_eq_true (h1 z (List.mem_reverse.mp hz)))]
          rw [List.filter_eq_nil_iff.mpr (fun z hz => by
            simp only [decide_eq_true_eq]
            exact hxne z hz), List.append_nil]
      · have hpw3 : List.Pairwise dateLe ([b].reverse ++ rest2) := by
          simpa using hpw2
        have hrec := ih (bkey b) [b]
          (by
            intro x hx
            rcases List.mem_singleton.mp hx with rfl
            rfl)
          (by simp) hpw3 mb hmb2
        obtain ⟨⟨x, hx, hxkey⟩, hmbeq⟩ := hrec
        have hxmem : x ∈ b :: rest2 := by simpa using hx
        have hkne : (mb.y, mb.m) ≠ curKey := by
          rw [← hxkey]
          exact hxne x hxmem
        have hsm : [b].reverse ++ rest2 = b :: rest2 := by simp
        rw [hsm] at hmbeq
        have hrev0 : List.filter (fun z => decide (bkey z = (mb.y, mb.m)))
            (c :: cr).reverse = [] :=
          List.filter_eq_nil_iff.mpr (fun z hz => by
            simp only [decide_eq_true_eq]
            rw [h1 z (List.mem_reverse.mp hz)]
            exact fun he => hkne he.symm)
        constructor
        · exact ⟨x, List.mem_append_right _ hxmem, hxkey⟩
        · conv_lhs => rw [hmbeq]
          congr 1
          rw [List.filter_append, hrev0, List.nil_append]

/-- The buckets of `resampleMonthlyAux` on a sorted series aggregate
exactly the rows of their month. -/
theorem resampleAux_buckets (l : List Bar) (hpw : List.Pairwise dateLe l) :
    ∀ mb ∈ resampleMonthlyAux l,
      (∃ x ∈ l, bkey x = (mb.y, mb.m)) ∧
      mb = aggBucket (mb.y, mb.m)
        (l.filter (fun z => decide (bkey z = (mb.y, mb.m)))) := by
  cases l with
  | nil =>
    intro mb hmb
    simp [resampleMonthlyAux] at hmb
  | cons b rest =>
    intro mb hmb
    have h := resampleGo_buckets rest (bkey b) [b]
      (by
        intro x hx
        rcases List.mem_singleton.mp hx with rfl
        rfl)
      (by simp) (by simpa using hpw) mb hmb
    simpa using h

/-- C4: on a date-sorted daily series, every bucket of the monthly resample
carries a non-NaN Close, and reads back Open/High/Low/Close/Volume as
first/max/min/last/sum of its month's daily values. -/
theorem resampleMonthly_agg (l : List Bar) (hpw : List.Pairwise dateLe l) :
    (∀ mb ∈ resampleMonthly l, mb.cl ≠ none) ∧
    (∀ mb ∈ resampleMonthly l,
      mb.op = firstSome ((l.filter (fun z => decide (bkey z = (mb.y, mb.m)))).map Bar.op) ∧
      mb.hi = maxSome ((l.filter (fun z => decide (bkey z = (mb.y, mb.m)))).map Bar.hi) ∧
      mb.lo = minSome ((l.filter (fun z => decide (bkey z = (mb.y, mb.m)))).map Bar.lo) ∧
      mb.cl = lastSome ((l.filter (fun z => decide (bkey z = (mb.y, mb.m)))).map Bar.cl) ∧
      mb.vol = some (sumSome ((l.filter (fun z => decide (bkey z = (mb.y, mb.m)))).map Bar.vol))) := by
  constructor
  · intro mb hmb
    have hs := (List.mem_filter.mp hmb).2
    intro hnone
    rw [hnone] at hs
    simp at hs
  · intro mb hmb
    have h := (resampleAux_buckets l hpw mb (List.mem_filter.mp hmb).1).2
    exact ⟨congrArg MBar.op h, congrArg MBar.hi h, congrArg MBar.lo h,
      congrArg MBar.cl h, congrArg MBar.vol h⟩

/-- Witness for C4 at a concrete two-month series. -/
theorem resampleMonthly_agg_witness :
    List.Pairwise dateLe
      [⟨2024, 1, 2, some 1, some 2, some 1, some 2, some 3⟩,
       ⟨2024, 1, 3, some 2, some 3, some 1, some 1, some 4⟩,
       ⟨2024, 2, 1, some 5, some 6, some 4, some 5, some 7⟩] ∧
    ∀ mb ∈ resampleMonthly
      [⟨2024, 1, 2, some 1, some 2, some 1, some 2, some 3⟩,
       ⟨2024, 1, 3, some 2, some 3, some 1, some 1, some 4⟩,
       ⟨2024, 2, 1, some 5, some 6, some 4, some 5, some 7⟩], mb.cl ≠ none :=
  ⟨by decide,
   (resampleMonthly_agg
      [⟨2024, 1, 2, some 1, some 2, some 1, some 2, some 3⟩,
       ⟨2024, 1, 3, some 2, some 3, some 1, some 1, some 4⟩,
       ⟨2024, 2, 1, some 5, some 6, some 4, some 5, some 7⟩] (by decide)).1⟩

/-- The month key of the last bar of the series (default for the empty
remainder). -/
def lastKey (k : Nat × Nat) : List Bar → Nat × Nat
  | [] => k
  | b :: rest => lastKey (bkey b) rest

/-- `resampleGo` always emits a bucket keyed by the final month. -/
theorem resampleGo_mem_lastKey (rest : List Bar) :
    ∀ (curKey : Nat × Nat) (curRun : List Bar),
      ∃ mb ∈ resampleGo curKey curRun rest, (mb.y, mb.m) = lastKey curKey rest := by
  induction rest with
  | nil =>
    intro ck cr
    exact ⟨aggBucket ck cr.reverse, List.mem_singleton.mpr rfl, rfl⟩
  | cons b rest2 ih =>
    intro ck cr
    by_cases hb : bkey b = ck
    · rw [resampleGo, if_pos (decide_eq_true hb)]
      have hlk : lastKey ck (b :: rest2) = lastKey ck rest2 := by
        show lastKey (bkey b) rest2 = lastKey ck rest2
        rw [hb]
      rw [hlk]
      exact ih ck (b :: cr)
    · rw [resampleGo, if_neg (by simp [hb])]
      obtain ⟨mb, hmem, hkey⟩ := ih (bkey b) [b]
      exact ⟨mb, List.mem_cons_of_mem _ hmem, hkey⟩

theorem lastKey_eq_getLast (rest : List Bar) :
    ∀ b : Bar, lastKey (bkey b) rest
      = bkey ((b :: rest).getLast (List.cons_ne_nil b rest)) := by
  induction rest with
  | nil => intro b; rfl
  | cons c rest2 ih =>
    intro b
    show lastKey (bkey c) rest2 = _
    rw [ih c, List.getLast_cons (List.cons_ne_nil c rest2)]

theorem getLast?_cons_of_ne_nil {α : Type} (a : α) (xs : List α) (h : xs ≠ []) :
    (a :: xs).getLast? = xs.getLast? := by
  cases xs with
  | nil => exact absurd rfl h
  | cons c t => exact List.getLast?_cons_cons

/-- When the last element passes a filter, it stays the last element. -/
theorem filter_getLast_mem {α : Type} (p : α → Bool) (l : List α) (hne : l ≠ [])
    (h : p (l.getLast hne) = true) :
    (l.filter p).getLast? = some (l.getLast hne) := by
  induction l with
  | nil => exact absurd rfl hne
  | cons a l ih =>
    cases l with
    | nil =>
      have ha : p a = true := h
      simp [List.filter_cons, ha, List.getLast?]
    | cons b l2 =>
      have hne2 : b :: l2 ≠ [] := List.cons_ne_nil b l2
      have hlast : (a :: b :: l2).getLast hne = (b :: l2).getLast hne2 :=
        List.getLast_cons hne2
      rw [hlast] at h ⊢
      have hrec := ih hne2 h
      rw [List.filter_cons]
      by_cases hpa : p a = true
      · rw [if_pos hpa]
        have hfne : (b :: l2).filter p ≠ [] := by
          intro hnil
          rw [hnil] at hrec
          simp at hrec
        rw [getLast?_cons_of_ne_nil a _ hfne]
        exact hrec
      · rw [if_neg hpa]
        exact hrec

theorem getLast?_map_of_getLast {α β : Type} (f : α → β) (l : List α) (a : α)
    (h : l.getLast? = some a) : (l.map f).getLast? = some (f a) := by
  induction l with
  | nil => simp at h
  | cons x l ih =>
    cases l with
    | nil =>
      simp only [List.getLast?_singleton, Option.some.injEq] at h
      subst h
      rfl
    | cons y l2 =>
      rw [List.getLast?_cons_cons] at h
      rw [List.map_cons, List.map_cons]
      rw [List.getLast?_cons_cons]
      rw [← List.map_cons]
      exact ih h

theorem lastSome_eq_of_getLast (xs : List (Option ℚ)) (v : ℚ)
    (h : xs.getLast? = some (some v)) : lastSome xs = some v := by
  unfold lastSome
  have hh : xs.reverse.head? = some (some v) := by
    rw [List.head?_reverse]
    exact h
  cases hrev : xs.reverse with
  | nil => rw [hrev] at hh; simp at hh
  | cons a t =>
    rw [hrev] at hh
    simp only [List.head?_cons, Option.some.injEq] at hh
    subst hh
    rfl

/-- C9 counterexample: a two-bar daily series ending on January 2 (before
the month-end boundary of January 31) resamples to a monthly series that
still contains the incomplete trailing January bucket, contradicting the
claim that such buckets are absent. -/
theorem resample_trailing_cex :
    List.Pairwise dateLe
      [⟨2024, 1, 1, some 1, some 1, some 1, some 1, some 0⟩,
       ⟨2024, 1, 2, some 1, some 2, some 1, some 2, some 0⟩] ∧
    (∃ mb ∈ resampleMonthly
      [⟨2024, 1, 1, some 1, some 1, some 1, some 1, some 0⟩,
       ⟨2024, 1, 2, some 1, some 2, some 1, some 2, some 0⟩],
      (mb.y, mb.m) = (2024, 1)) := by
  constructor
  · decide
  · decide

/-- C9 amended: the trailing bucket is retained: for every sorted nonempty
daily series whose last bar has a non-NaN Close, the monthly resample
contains a bucket keyed by the last bar's month — even when the series ends
before that month's closing boundary. -/
theorem resample_trailing_kept (l : List Bar) (hne : l ≠ [])
    (hpw : List.Pairwise dateLe l) (hcl : (l.getLast hne).cl ≠ none) :
    ∃ mb ∈ resampleMonthly l, (mb.y, mb.m) = bkey (l.getLast hne) := by
  cases l with
  | nil => exact absurd rfl hne
  | cons b rest =>
    obtain ⟨mb, hmem, hkey⟩ := resampleGo_mem_lastKey rest (bkey b) [b]
    have hkey2 : (mb.y, mb.m) = bkey ((b :: rest).getLast hne) := by
      rw [hkey]
      exact lastKey_eq_getLast rest b
    have hmemaux : mb ∈ resampleMonthlyAux (b :: rest) := hmem
    obtain ⟨-, hmbeq⟩ := resampleAux_buckets (b :: rest) hpw mb hmemaux
    obtain ⟨v, hv⟩ := Option.ne_none_iff_exists.mp hcl
    have hfil := filter_getLast_mem (fun z => decide (bkey z = (mb.y, mb.m)))
      (b :: rest) hne (decide_eq_true hkey2.symm)
    have hmap := getLast?_map_of_getLast Bar.cl _ _ hfil
    have hcl2 : mb.cl = some v := by
      have hstep : mb.cl = lastSome
          (((b :: rest).filter (fun z => decide (bkey z = (mb.y, mb.m)))).map Bar.cl) :=
        congrArg MBar.cl hmbeq
      rw [hstep]
      apply lastSome_eq_of_getLast
      rw [hmap, ← hv]
    refine ⟨mb, List.mem_filter.mpr ⟨hmemaux, ?_⟩, hkey2⟩
    rw [hcl2]
    rfl

/-- Witness for C9 at a concrete series ending mid-February. -/
theorem resample_trailing_kept_witness :
    ([⟨2024, 1, 5, some 1, some 1, some 1, some 1, some 0⟩,
      ⟨2024, 2, 10, some 2, some 2, some 2, some 2, some 0⟩] : List Bar) ≠ [] ∧
    ∃ mb ∈ resampleMonthly
      [⟨2024, 1, 5, some 1, some 1, some 1, some 1, some 0⟩,
       ⟨2024, 2, 10, some 2, some 2, some 2, some 2, some 0⟩],
      (mb.y, mb.m) = bkey (([⟨2024, 1, 5, some 1, some 1, some 1, some 1, some 0⟩,
        ⟨2024, 2, 10, some 2, some 2, some 2, some 2, some 0⟩] : List Bar).getLast
          (by decide)) :=
  ⟨by decide,
   resample_trailing_kept
     [⟨2024, 1, 5, some 1, some 1, some 1, some 1, some 0⟩,
      ⟨2024, 2, 10, some 2, some 2, some 2, some 2, some 0⟩]
     (by decide) (by decide) (by decide)⟩

/-! ### Moving averages and votes (`get_technicals`, lines 2260-2298 and
2448-2455)

Closing prices are a chronological list of rationals modelling the float
series; rolling computations yield `Option ℚ` with `none` for NaN
(insufficient window), and a comparison against NaN is false, so a NaN
average votes Neutral exactly as the Python comparisons do. -/

/-- The last `p` values of a series. -/
def lastN (p : Nat) (l : List ℚ) : List ℚ := l.drop (l.length - p)

/-- `close.rolling(p).mean().bfill().iloc[-1]`: the mean of the last `p`
closes, NaN when the series is shorter than `p`. -/
def smaLast (p : Nat) (l : List ℚ) : Option ℚ :=
  if 1 ≤ p ∧ p ≤ l.length then some ((lastN p l).sum / p) else none

/-- One step of `ewm(span=p, adjust=False)`. -/
def ewmaStep (a e x : ℚ) : ℚ := a * x + (1 - a) * e

/-- `close.ewm(span=p, adjust=False).mean().iloc[-1]`. -/
def emaLast (p : Nat) (l : List ℚ) : Option ℚ :=
  match l with
  | [] => none
  | x :: xs => some (xs.foldl (ewmaStep (2 / ((p : ℚ) + 1))) x)

/-- `np.dot(prices, weights)` for weights `k, k+1, ...`. -/
def wdot : Nat → List ℚ → ℚ
  | _, [] => 0
  | k, x :: xs => (k : ℚ) * x + wdot (k + 1) xs

/-- `weights.sum()` for weights `k, ..., k+n-1`. -/
def wsum : Nat → Nat → ℚ
  | _, 0 => 0
  | k, n + 1 => (k : ℚ) + wsum (k + 1) n

/-- `close.rolling(p).apply(lambda prices: np.dot(prices, 1..p)/sum(1..p))`
at the last position. -/
def wmaLast (p : Nat) (l : List ℚ) : Option ℚ :=
  if 1 ≤ p ∧ p ≤ l.length then some (wdot 1 (lastN p l) / wsum 1 p) else none

/-- The full rolling-WMA series (NaN before the window fills). -/
def rollingWMA (p : Nat) (l : List ℚ) : List (Option ℚ) :=
  (List.range l.length).map (fun i => wmaLast p (l.take (i + 1)))

/-- `2*wma_half - wma_full` with NaN propagation. -/
def optSub2 : Option ℚ → Option ℚ → Option ℚ
  | some x, some z => some (2 * x - z)
  | _, _ => none

/-- `series.rolling(s).mean()` over a series that may contain NaN: NaN
whenever the window is incomplete or contains NaN. -/
def rollingMeanOpt (s : Nat) (m : List (Option ℚ)) : List (Option ℚ) :=
  (List.range m.length).map (fun i =>
    if 1 ≤ s ∧ s ≤ i + 1 ∧
        ((m.take (i + 1)).drop (i + 1 - s)).all Option.isSome = true
    then some ((((m.take (i + 1)).drop (i + 1 - s)).filterMap id).sum / s)
    else none)

/-- The HMA of `get_technicals`:
`(2*wma(p/2) - wma(p)).rolling(int(sqrt(p))).mean().iloc[-1]`. -/
def hmaLast (p : Nat) (l : List ℚ) : Option ℚ :=
  (rollingMeanOpt (Nat.sqrt p)
    (List.zipWith optSub2 (rollingWMA (p / 2) l) (rollingWMA p l))).getLastD none

def ewmaSeriesAux (a e : ℚ) : List ℚ → List ℚ
  | [] => []
  | x :: xs => ewmaStep a e x :: ewmaSeriesAux a (ewmaStep a e x) xs

/-- The full `ewm(span=p, adjust=False).mean()` series. -/
def ewmaSeries (a : ℚ) : List ℚ → List ℚ
  | [] => []
  | x :: xs => x :: ewmaSeriesAux a x xs

/-- The TEMA of `get_technicals`: `(3*ema1 - 3*ema2 + ema3).iloc[-1]`. -/
def temaLast (p : Nat) (l : List ℚ) : Option ℚ :=
  match (ewmaSeries (2 / ((p : ℚ) + 1)) l).getLast?,
      (ewmaSeries (2 / ((p : ℚ) + 1)) (ewmaSeries (2 / ((p : ℚ) + 1)) l)).getLast?,
      (ewmaSeries (2 / ((p : ℚ) + 1))
        (ewmaSeries (2 / ((p : ℚ) + 1)) (ewmaSeries (2 / ((p : ℚ) + 1)) l))).getLast? with
  | some e1, some e2, some e3 => some (3 * e1 - 3 * e2 + e3)
  | _, _, _ => none

/-- A per-indicator vote. -/
inductive Action
  | buy
  | sell
  | neutral
deriving DecidableEq

/-- `"Buy" if close.iloc[-1] > v else "Sell" if close.iloc[-1] < v else
"Neutral"`; both float comparisons are false against NaN. -/
def voteAbove (lc : ℚ) (v : Option ℚ) : Action :=
  match v with
  | none => Action.neutral
  | some x => if x < lc then Action.buy else if lc < x then Action.sell else Action.neutral

/-- `close.iloc[-1]` (series nonempty in every use). -/
def lastClose (l : List ℚ) : ℚ := l.getLastD 0

/-- One row of `ma_summary`. -/
structure Ind where
  name : String
  val : Option ℚ
  action : Action
deriving DecidableEq

def smaInd (p : Nat) (l : List ℚ) : Ind :=
  ⟨"SMA" ++ toString p, (smaLast p l).map pyRound2, voteAbove (lastClose l) (smaLast p l)⟩

def emaInd (p : Nat) (l : List ℚ) : Ind :=
  ⟨"EMA" ++ toString p, (emaLast p l).map pyRound2, voteAbove (lastClose l) (emaLast p l)⟩

def wmaInd (p : Nat) (l : List ℚ) : Ind :=
  ⟨"WMA" ++ toString p, (wmaLast p l).map pyRound2, voteAbove (lastClose l) (wmaLast p l)⟩

def hmaInd (p : Nat) (l : List ℚ) : Ind :=
  ⟨"HMA" ++ toString p, (hmaLast p l).map pyRound2, voteAbove (lastClose l) (hmaLast p l)⟩

def temaInd (p : Nat) (l : List ℚ) : Ind :=
  ⟨"TEMA" ++ toString p, (temaLast p l).map pyRound2, voteAbove (lastClose l) (temaLast p l)⟩

/-- `ma_periods = [p for p in [10,20,50,100,200] if len(close) >= p]`. -/
def maPeriods (l : List ℚ) : List Nat :=
  [10, 20, 50, 100, 200].filter (fun p => decide (p ≤ l.length))

/-- `ma_summary`: SMA and EMA per period, then WMA, HMA and TEMA per
period. -/
def maSummary (l : List ℚ) : List Ind :=
  ((maPeriods l).map (fun p => [smaInd p l, emaInd p l])).flatten
    ++ ((maPeriods l).map (fun p => [wmaInd p l, hmaInd p l, temaInd p l])).flatten

def actionCount (a : Action) (inds : List Ind) : Nat :=
  inds.countP (fun i => decide (i.action = a))

/-- The aggregate moving-average signal: Buy/Sell by strict majority. -/
def maSignal (l : List ℚ) : Action :=
  if actionCount Action.sell (maSummary l) < actionCount Action.buy (maSummary l)
  then Action.buy
  else if actionCount Action.buy (maSummary l) < actionCount Action.sell (maSummary l)
  then Action.sell
  else Action.neutral

/-- The linear 200-element closing series used as concrete input. -/
def linClose : List ℚ := List.map Nat.cast (List.range 200)

theorem zipWith_map_same {α β : Type} (h : α → α → β) (f g : Nat → α) :
    ∀ r : List Nat, List.zipWith h (r.map f) (r.map g) = r.map (fun i => h (f i) (g i))
  | [] => rfl
  | i :: r => by
    simp only [List.map_cons, List.zipWith_cons_cons]
    rw [zipWith_map_same h f g r]

theorem getLastD_map_range {α : Type} (f : Nat → α) (d : α) (n : Nat) (h : 1 ≤ n) :
    ((List.range n).map f).getLastD d = f (n - 1) := by
  obtain ⟨m, rfl⟩ : ∃ m, n = m + 1 := ⟨n - 1, by omega⟩
  rw [List.range_succ, List.map_append, List.map_singleton]
  rw [List.getLastD_concat]
  simp

theorem head?_drop_eq_get? {α : Type} :
    ∀ (l : List α) (k : Nat), (l.drop k).head? = l.get? k
  | [], _ => by simp
  | a :: t, 0 => rfl
  | a :: t, k + 1 => by
    simp only [List.drop_succ_cons, List.get?_cons_succ]
    exact head?_drop_eq_get? t k

theorem get?_map_range {α : Type} (f : Nat → α) (n i : Nat) (h : i < n) :
    ((List.range n).map f).get? i = some (f i) := by
  rw [List.get?_map, List.get?_range h]
  rfl

/-- The HMA is NaN whenever the rolling mean of the raw
`2*wma(p/2) - wma(p)` series needs a full-window value that does not exist:
with `len(close) + 1 < p + int(sqrt(p))` the last rolling window reaches a
position whose `wma(p)` is NaN. -/
theorem hmaLast_none (p : Nat) (l : List ℚ) (hs1 : 1 ≤ Nat.sqrt p)
    (hsn : Nat.sqrt p ≤ l.length) (h1n : 1 ≤ l.length)
    (hshort : l.length + 1 < p + Nat.sqrt p) : hmaLast p l = none := by
  have hraw : List.zipWith optSub2 (rollingWMA (p / 2) l) (rollingWMA p l)
      = (List.range l.length).map
          (fun i => optSub2 (wmaLast (p / 2) (l.take (i + 1)))
            (wmaLast p (l.take (i + 1)))) := by
    unfold rollingWMA
    exact zipWith_map_same _ _ _ _
  unfold hmaLast
  rw [hraw]
  have hm : ((List.range l.length).map
      (fun i => optSub2 (wmaLast (p / 2) (l.take (i + 1)))
        (wmaLast p (l.take (i + 1))))).length = l.length := by
    simp
  unfold rollingMeanOpt
  rw [hm]
  rw [getLastD_map_range _ _ _ h1n]
  have hn1 : l.length - 1 + 1 = l.length := by omega
  rw [hn1]
  have htk : ((List.range l.length).map
      (fun i => optSub2 (wmaLast (p / 2) (l.take (i + 1)))
        (wmaLast p (l.take (i + 1))))).take l.length
      = (List.range l.length).map
          (fun i => optSub2 (wmaLast (p / 2) (l.take (i + 1)))
            (wmaLast p (l.take (i + 1)))) :=
    List.take_of_length_le (le_of_eq hm)
  rw [htk]
  have hhead : (((List.range l.length).map
      (fun i => optSub2 (wmaLast (p / 2) (l.take (i + 1)))
        (wmaLast p (l.take (i + 1))))).drop (l.length - Nat.sqrt p)).head?
      = some (optSub2 (wmaLast (p / 2) (l.take (l.length - Nat.sqrt p + 1)))
          (wmaLast p (l.take (l.length - Nat.sqrt p + 1)))) := by
    rw [head?_drop_eq_get?]
    exact get?_map_range _ _ _ (by omega)
  have hwnone : wmaLast p (l.take (l.length - Nat.sqrt p + 1)) = none := by
    unfold wmaLast
    rw [if_neg]
    rintro ⟨-, hle⟩
    rw [List.length_take] at hle
    omega
  rw [hwnone] at hhead
  have hsubnone : optSub2 (wmaLast (p / 2) (l.take (l.length - Nat.sqrt p + 1))) none
      = none := by
    cases wmaLast (p / 2) (l.take (l.length - Nat.sqrt p + 1)) <;> rfl
  rw [hsubnone] at hhead
  rw [if_neg]
  rintro ⟨-, -, hall⟩
  cases hw : ((List.range l.length).map
      (fun i => optSub2 (wmaLast (p / 2) (l.take (i + 1)))
        (wmaLast p (l.take (i + 1))))).drop (l.length - Nat.sqrt p) with
  | nil => rw [hw] at hhead; simp at hhead
  | cons a t =>
    rw [hw] at hhead hall
    simp only [List.head?_cons, Option.some.injEq] at hhead
    subst hhead
    simp at hall

set_option maxRecDepth 4000 in
/-- C5 counterexample: the strictly increasing 200-bar series `0, 1, ..., 199`
is exactly as long as the longest lookback, yet HMA200 is NaN (its rolling
window has no full 200-bar WMA history), so its vote is Neutral, not Buy. -/
theorem ma_votes_linear_cex :
    List.Pairwise (fun a b => a < b) linClose ∧ 200 ≤ linClose.length ∧
    ¬ (∀ ind ∈ maSummary linClose, ind.action = Action.buy) := by
  have hlen : linClose.length = 200 := by
    unfold linClose
    rw [List.length_map, List.length_range]
  have hsq : Nat.sqrt 200 = 14 := by
    have h1 : 14 ≤ Nat.sqrt 200 := Nat.le_sqrt.mpr (by norm_num)
    have h2 : Nat.sqrt 200 < 15 := Nat.sqrt_lt.mpr (by norm_num)
    omega
  refine ⟨?_, ?_, ?_⟩
  · unfold linClose
    exact List.Pairwise.map _ (fun a b h => Nat.cast_lt.mpr h)
      (List.pairwise_lt_range 200)
  · rw [hlen]
  · intro hall
    have hnone : hmaLast 200 linClose = none := by
      apply hmaLast_none 200 linClose
      · rw [hsq]; norm_num
      · rw [hsq, hlen]; norm_num
      · rw [hlen]; norm_num
      · rw [hsq, hlen]; norm_num
    have hper : maPeriods linClose = [10, 20, 50, 100, 200] := by decide
    have hmem : hmaInd 200 linClose ∈ maSummary linClose := by
      unfold maSummary
      apply List.mem_append_right
      apply List.mem_flatten.mpr
      refine ⟨[wmaInd 200 linClose, hmaInd 200 linClose, temaInd 200 linClose], ?_, ?_⟩
      · rw [hper]
        exact List.mem_map.mpr ⟨200, by simp, rfl⟩
      · simp
    have hvote := hall _ hmem
    have haction : (hmaInd 200 linClose).action
        = voteAbove (lastClose linClose) (hmaLast 200 linClose) := rfl
    rw [haction, hnone] at hvote
    simp [voteAbove] at hvote

theorem sum_lt_length_mul (xs : List ℚ) (M : ℚ) (hne : xs ≠ [])
    (h : ∀ x ∈ xs, x < M) : xs.sum < xs.length * M := by
  induction xs with
  | nil => exact absurd rfl hne
  | cons x t ih =>
    rw [List.sum_cons, List.length_cons]
    cases t with
    | nil =>
      simp only [List.sum_nil, List.length_nil, add_zero]
      push_cast
      linarith [h x (List.mem_cons_self x [])]
    | cons y t2 =>
      have hi := ih (List.cons_ne_nil y t2)
        (fun z hz => h z (List.mem_cons_of_mem x hz))
      have hx := h x (List.mem_cons_self x (y :: t2))
      push_cast
      push_cast at hi
      linarith

theorem wdot_le (xs : List ℚ) : ∀ (k : Nat) (M : ℚ),
    (∀ x ∈ xs, x ≤ M) → wdot k xs ≤ wsum k xs.length * M := by
  induction xs with
  | nil =>
    intro k M _
    simp [wdot, wsum]
  | cons x t ih =>
    intro k M h
    rw [List.length_cons]
    show (k : ℚ) * x + wdot (k + 1) t ≤ ((k : ℚ) + wsum (k + 1) t.length) * M
    have h1 : (k : ℚ) * x ≤ (k : ℚ) * M :=
      mul_le_mul_of_nonneg_left (h x (List.mem_cons_self x t)) (by positivity)
    have h2 := ih (k + 1) M (fun z hz => h z (List.mem_cons_of_mem x hz))
    linarith [h2]

theorem wdot_lt (xs : List ℚ) : ∀ (k : Nat) (M : ℚ), 1 ≤ k → xs ≠ [] →
    (∀ x ∈ xs, x < M) → wdot k xs < wsum k xs.length * M := by
  induction xs with
  | nil => intro _ _ _ hne _; exact absurd rfl hne
  | cons x t ih =>
    intro k M hk _ h
    rw [List.length_cons]
    show (k : ℚ) * x + wdot (k + 1) t < ((k : ℚ) + wsum (k + 1) t.length) * M
    have hkq : (1 : ℚ) ≤ (k : ℚ) := by exact_mod_cast hk
    have h1 : (k : ℚ) * x < (k : ℚ) * M :=
      mul_lt_mul_of_pos_left (h x (List.mem_cons_self x t)) (by linarith)
    have h2 := wdot_le t (k + 1) M (fun z hz => le_of_lt (h z (List.mem_cons_of_mem x hz)))
    linarith

theorem wsum_succ_back : ∀ (n k : Nat), wsum k (n + 1) = wsum k n + ((k : ℚ) + n) := by
  intro n
  induction n with
  | zero =>
    intro k
    show (k : ℚ) + wsum (k + 1) 0 = wsum k 0 + ((k : ℚ) + 0)
    simp [wsum]
  | succ m ih =>
    intro k
    show (k : ℚ) + wsum (k + 1) (m + 1) = ((k : ℚ) + wsum (k + 1) m) + ((k : ℚ) + ((m + 1 : Nat) : ℚ))
    rw [ih (k + 1)]
    push_cast
    ring

theorem wsum_nonneg : ∀ (n k : Nat), 0 ≤ wsum k n := by
  intro n
  induction n with
  | zero => intro k; simp [wsum]
  | succ m ih =>
    intro k
    show 0 ≤ (k : ℚ) + wsum (k + 1) m
    have := ih (k + 1)
    positivity

theorem wsum_pos (n k : Nat) (hk : 1 ≤ k) (hn : 1 ≤ n) : 0 < wsum k n := by
  obtain ⟨m, rfl⟩ : ∃ m, n = m + 1 := ⟨n - 1, by omega⟩
  show 0 < (k : ℚ) + wsum (k + 1) m
  have h1 : (1 : ℚ) ≤ (k : ℚ) := by exact_mod_cast hk
  have h2 := wsum_nonneg m (k + 1)
  linarith

theorem ema_lt (a : ℚ) (M : ℚ) (h0 : 0 ≤ a) (h1 : a < 1) :
    ∀ (xs : List ℚ) (e : ℚ), e < M → (∀ x ∈ xs, x ≤ M) →
      xs.foldl (ewmaStep a) e < M := by
  intro xs
  induction xs with
  | nil => intro e he _; exact he
  | cons x t ih =>
    intro e he h
    rw [List.foldl_cons]
    apply ih
    · show a * x + (1 - a) * e < M
      have hx := h x (List.mem_cons_self x t)
      nlinarith [mul_nonneg h0 (by linarith : (0 : ℚ) ≤ M - x),
        mul_pos (by linarith : (0 : ℚ) < 1 - a) (by linarith : (0 : ℚ) < M - e)]
    · exact fun z hz => h z (List.mem_cons_of_mem x hz)

theorem wdot_append (b : List ℚ) : ∀ (c : List ℚ) (k : Nat),
    wdot k (c ++ b) = wdot k c + wdot (k + c.length) b := by
  intro c
  induction c with
  | nil => intro k; simp [wdot]
  | cons x t ih =>
    intro k
    show (k : ℚ) * x + wdot (k + 1) (t ++ b) = ((k : ℚ) * x + wdot (k + 1) t) + _
    rw [ih (k + 1)]
    rw [List.length_cons]
    have : k + 1 + t.length = k + (t.length + 1) := by omega
    rw [this]
    ring

theorem countP_pair_votes (s e : Ind) (hs : s.action = Action.buy)
    (he : e.action = Action.buy) :
    List.countP (fun i => decide (i.action = Action.buy)) [s, e] = 2 ∧
    List.countP (fun i => decide (i.action = Action.sell)) [s, e] = 0 := by
  constructor <;> simp [List.countP_cons, hs, he]

theorem countP_block_votes (w h t : Ind) (hw : w.action = Action.buy) :
    1 ≤ List.countP (fun i => decide (i.action = Action.buy)) [w, h, t] ∧
    List.countP (fun i => decide (i.action = Action.sell)) [w, h, t] ≤ 2 := by
  constructor
  · have : List.countP (fun i => decide (i.action = Action.buy)) [w, h, t]
        = List.countP (fun i => decide (i.action = Action.buy)) [h, t] + 1 := by
      simp [List.countP_cons, hw]
    omega
  · have h1 : List.countP (fun i => decide (i.action = Action.sell)) [w, h, t]
        = List.countP (fun i => decide (i.action = Action.sell)) [h, t] := by
      simp [List.countP_cons, hw]
    have h2 : List.countP (fun i => decide (i.action = Action.sell)) [h, t]
        ≤ ([h, t] : List Ind).length := List.countP_le_length _
    simp only [List.length_cons, List.length_nil] at h2
    omega

theorem cast_pred (p : Nat) (hp : 1 ≤ p) : ((p - 1 : Nat) : ℚ) = (p : ℚ) - 1 := by
  obtain ⟨q, rfl⟩ : ∃ q, p = q + 1 := ⟨p - 1, by omega⟩
  rw [Nat.add_sub_cancel]
  push_cast
  ring

/-- C5 (amended): on a strictly increasing closing series of length at
least 200 every SMA, EMA and WMA indicator votes Buy, and since they form
a strict majority of the 25 rows the aggregate moving-average signal is
Buy; HMA and TEMA rows are not constrained (an HMA can be NaN and vote
Neutral, as `ma_votes_linear_cex` shows at length exactly 200). -/
theorem ma_votes_strict_mono (l : List ℚ) (hlen : 200 ≤ l.length)
    (hmono : List.Pairwise (fun a b => a < b) l) :
    (∀ p ∈ maPeriods l,
      voteAbove (lastClose l) (smaLast p l) = Action.buy ∧
      voteAbove (lastClose l) (emaLast p l) = Action.buy ∧
      voteAbove (lastClose l) (wmaLast p l) = Action.buy) ∧
    maSignal l = Action.buy := by
  obtain ⟨front, M, rfl⟩ : ∃ front M, l = front ++ [M] := by
    rcases List.eq_nil_or_concat l with h | ⟨f, m, h⟩
    · rw [h] at hlen; simp at hlen
    · exact ⟨f, m, by rw [h, List.concat_eq_append]⟩
  have hM : lastClose (front ++ [M]) = M := by
    unfold lastClose
    rw [List.getLastD_concat]
  have hfrontlt : ∀ x ∈ front, x < M := by
    intro x hx
    exact (List.pairwise_append.mp hmono).2.2 x hx M (List.mem_singleton.mpr rfl)
  have hlen2 : (front ++ [M]).length = front.length + 1 := by
    rw [List.length_append, List.length_cons, List.length_nil]
  have hfl : 199 ≤ front.length := by omega
  have hvotes : ∀ p ∈ maPeriods (front ++ [M]),
      voteAbove (lastClose (front ++ [M])) (smaLast p (front ++ [M])) = Action.buy ∧
      voteAbove (lastClose (front ++ [M])) (emaLast p (front ++ [M])) = Action.buy ∧
      voteAbove (lastClose (front ++ [M])) (wmaLast p (front ++ [M])) = Action.buy := by
    intro p hp
    have hpf := List.mem_filter.mp hp
    have hple : p ≤ (front ++ [M]).length := of_decide_eq_true hpf.2
    have hp2 : 2 ≤ p := by
      have hmem := hpf.1
      simp only [List.mem_cons, List.not_mem_nil, or_false] at hmem
      rcases hmem with rfl | rfl | rfl | rfl | rfl <;> norm_num
    have hpq : (0 : ℚ) < (p : ℚ) := by
      have : 0 < p := by omega
      exact_mod_cast this
    have hdle : (front ++ [M]).length - p ≤ front.length := by omega
    have hwin : lastN p (front ++ [M]) = front.drop ((front ++ [M]).length - p) ++ [M] := by
      unfold lastN
      exact List.drop_append_of_le_length hdle
    have hdlen : (front.drop ((front ++ [M]).length - p)).length = p - 1 := by
      rw [List.length_drop]
      omega
    have hdne : front.drop ((front ++ [M]).length - p) ≠ [] := by
      intro h0
      have hz : (front.drop ((front ++ [M]).length - p)).length = 0 := by rw [h0]; rfl
      omega
    have hdmem : ∀ x ∈ front.drop ((front ++ [M]).length - p), x < M :=
      fun x hx => hfrontlt x (List.mem_of_mem_drop hx)
    refine ⟨?_, ?_, ?_⟩
    · have hsma : smaLast p (front ++ [M])
          = some ((lastN p (front ++ [M])).sum / p) := by
        unfold smaLast
        rw [if_pos ⟨by omega, hple⟩]
      have hlt : (lastN p (front ++ [M])).sum / (p : ℚ) < M := by
        rw [hwin, List.sum_append, List.sum_cons, List.sum_nil, add_zero]
        rw [div_lt_iff hpq]
        have hs := sum_lt_length_mul _ M hdne hdmem
        rw [hdlen, cast_pred p (by omega)] at hs
        linarith
      rw [hM, hsma]
      simp only [voteAbove]
      rw [if_pos hlt]
    · obtain ⟨f0, fr, hfe⟩ : ∃ f0 fr, front = f0 :: fr := by
        cases front with
        | nil => rw [List.length_nil] at hfl; omega
        | cons a b => exact ⟨a, b, rfl⟩
      subst hfe
      have hema : emaLast p ((f0 :: fr) ++ [M])
          = some ((fr ++ [M]).foldl (ewmaStep (2 / ((p : ℚ) + 1))) f0) := rfl
      have hpq2 : (2 : ℚ) ≤ (p : ℚ) := by exact_mod_cast hp2
      have ha1 : 2 / ((p : ℚ) + 1) < 1 := by
        rw [div_lt_one (by positivity)]
        linarith
      have hlt : (fr ++ [M]).foldl (ewmaStep (2 / ((p : ℚ) + 1))) f0 < M := by
        apply ema_lt _ M (by positivity) ha1
        · exact hfrontlt f0 (List.mem_cons_self f0 fr)
        · intro x hx
          rcases List.mem_append.mp hx with h | h
          · exact le_of_lt (hfrontlt x (List.mem_cons_of_mem f0 h))
          · exact le_of_eq (List.mem_singleton.mp h)
      rw [hM, hema]
      simp only [voteAbove]
      rw [if_pos hlt]
    · have hwma : wmaLast p (front ++ [M])
          = some (wdot 1 (lastN p (front ++ [M])) / wsum 1 p) := by
        unfold wmaLast
        rw [if_pos ⟨by omega, hple⟩]
      have hws : 0 < wsum 1 p := wsum_pos p 1 (le_refl 1) (by omega)
      have hlt : wdot 1 (lastN p (front ++ [M])) / wsum 1 p < M := by
        rw [div_lt_iff hws, hwin, wdot_append, hdlen]
        rw [show 1 + (p - 1) = p from by omega]
        have hsingle : wdot p [M] = (p : ℚ) * M := by
          show (p : ℚ) * M + wdot (p + 1) [] = (p : ℚ) * M
          simp [wdot]
        rw [hsingle]
        have hd := wdot_lt (front.drop ((front ++ [M]).length - p)) 1 M
          (le_refl 1) hdne hdmem
        rw [hdlen] at hd
        have hsum := wsum_succ_back (p - 1) 1
        rw [show p - 1 + 1 = p from by omega, cast_pred p (by omega)] at hsum
        rw [hsum]
        push_cast at hd ⊢
        nlinarith [hd]
      rw [hM, hwma]
      simp only [voteAbove]
      rw [if_pos hlt]
  refine ⟨hvotes, ?_⟩
  have hper : maPeriods (front ++ [M]) = [10, 20, 50, 100, 200] := by
    unfold maPeriods
    apply filter_eq_self_of_forall
    intro p hp
    apply decide_eq_true
    simp only [List.mem_cons, List.not_mem_nil, or_false] at hp
    rcases hp with rfl | rfl | rfl | rfl | rfl <;> omega
  have hm10 : (10 : Nat) ∈ maPeriods (front ++ [M]) := by rw [hper]; decide
  have hm20 : (20 : Nat) ∈ maPeriods (front ++ [M]) := by rw [hper]; decide
  have hm50 : (50 : Nat) ∈ maPeriods (front ++ [M]) := by rw [hper]; decide
  have hm100 : (100 : Nat) ∈ maPeriods (front ++ [M]) := by rw [hper]; decide
  have hm200 : (200 : Nat) ∈ maPeriods (front ++ [M]) := by rw [hper]; decide
  have h10 := hvotes 10 hm10
  have h20 := hvotes 20 hm20
  have h50 := hvotes 50 hm50
  have h100 := hvotes 100 hm100
  have h200 := hvotes 200 hm200
  have hcount : actionCount Action.sell (maSummary (front ++ [M]))
      < actionCount Action.buy (maSummary (front ++ [M])) := by
    unfold actionCount maSummary
    rw [hper]
    simp only [List.map_cons, List.map_nil, List.flatten_cons, List.flatten_nil,
      List.append_nil, List.countP_append]
    obtain ⟨hpb10, hps10⟩ := countP_pair_votes (smaInd 10 (front ++ [M]))
      (emaInd 10 (front ++ [M])) h10.1 h10.2.1
    obtain ⟨hpb20, hps20⟩ := countP_pair_votes (smaInd 20 (front ++ [M]))
      (emaInd 20 (front ++ [M])) h20.1 h20.2.1
    obtain ⟨hpb50, hps50⟩ := countP_pair_votes (smaInd 50 (front ++ [M]))
      (emaInd 50 (front ++ [M])) h50.1 h50.2.1
    obtain ⟨hpb100, hps100⟩ := countP_pair_votes (smaInd 100 (front ++ [M]))
      (emaInd 100 (front ++ [M])) h100.1 h100.2.1
    obtain ⟨hpb200, hps200⟩ := countP_pair_votes (smaInd 200 (front ++ [M]))
      (emaInd 200 (front ++ [M])) h200.1 h200.2.1
    have hB10 := countP_block_votes (wmaInd 10 (front ++ [M]))
      (hmaInd 10 (front ++ [M])) (temaInd 10 (front ++ [M])) h10.2.2
    have hB20 := countP_block_votes (wmaInd 20 (front ++ [M]))
      (hmaInd 20 (front ++ [M])) (temaInd 20 (front ++ [M])) h20.2.2
    have hB50 := countP_block_votes (wmaInd 50 (front ++ [M]))
      (hmaInd 50 (front ++ [M])) (temaInd 50 (front ++ [M])) h50.2.2
    have hB100 := countP_block_votes (wmaInd 100 (front ++ [M]))
      (hmaInd 100 (front ++ [M])) (temaInd 100 (front ++ [M])) h100.2.2
    have hB200 := countP_block_votes (wmaInd 200 (front ++ [M]))
      (hmaInd 200 (front ++ [M])) (temaInd 200 (front ++ [M])) h200.2.2
    omega
  unfold maSignal
  rw [if_pos hcount]

/-- Witness for C5 at the strictly increasing series `0, 1, ..., 199`. -/
theorem ma_votes_strict_mono_witness :
    (200 ≤ linClose.length ∧ List.Pairwise (fun a b => a < b) linClose) ∧
    ((∀ p ∈ maPeriods linClose,
      voteAbove (lastClose linClose) (smaLast p linClose) = Action.buy ∧
      voteAbove (lastClose linClose) (emaLast p linClose) = Action.buy ∧
      voteAbove (lastClose linClose) (wmaLast p linClose) = Action.buy) ∧
    maSignal linClose = Action.buy) :=
  ⟨⟨by unfold linClose; rw [List.length_map, List.length_range],
    by
      unfold linClose
      exact List.Pairwise.map _ (fun a b h => Nat.cast_lt.mpr h)
        (List.pairwise_lt_range 200)⟩,
   ma_votes_strict_mono linClose
     (by unfold linClose; rw [List.length_map, List.length_range])
     (by
       unfold linClose
       exact List.Pairwise.map _ (fun a b h => Nat.cast_lt.mpr h)
         (List.pairwise_lt_range 200))⟩

end StockApp
